import Mathlib

/-!
Shallow embedding of the HanCache library (src/LRUCache.h, src/LFUCache.h).

Modelling conventions:
* The sentinel-anchored circular doubly-linked lists are modelled as Lean
  lists, front = the node right after the dummy (most recently used),
  last = `dummy->prev` (eviction victim).
* `std::unordered_map` is modelled as an association list with find-first
  semantics; `erase` removes the entries with the given key (the C++ map
  holds at most one).
* `size_t` counters are `Nat`.  Additions / increments are modelled exactly
  (an increment-only counter cannot realistically wrap), while the
  subtraction `node->accessCount -= maxAverageNum_/2` in
  `LFUCachePro::handleFreqOverflow` and `curTotalNum_ -= num` in
  `decreaseFreqNum` are modelled with 64-bit wraparound (`usub`), because
  they can underflow on reachable states.  Division by zero (UB in C++) is
  modelled as a fault (`none`), as is dereferencing the null `shared_ptr`
  that `freqNodeMap_[minFreq_]` creates when the bucket is absent.
* Fallible operations return `Option`; `none` is a crash / UB of the C++.
* `minFreq_` is uninitialised by both LFU constructors, so `init` takes an
  arbitrary initial value `m0` for it.
-/

variable {K V : Type}

/-! ### Generic list helpers -/

/-- Remove every occurrence of `k` from a list of keys (used for unlinking a
node, identified by its key, from a bucket list). -/
def filterNe [DecidableEq K] (k : K) : List K → List K
  | [] => []
  | a :: l => if a = k then filterNe k l else a :: filterNe k l

/-- First occurrences of a list, left to right, skipping elements already
seen (accumulator version, structurally recursive). -/
def ddAux [DecidableEq K] : List K → List K → List K
  | [], _ => []
  | a :: l, seen => if a ∈ seen then ddAux l seen else a :: ddAux l (a :: seen)

/-- The distinct elements of `l` in order of first occurrence. -/
def dedupKeys [DecidableEq K] (l : List K) : List K := ddAux l []

/-- The first `c` distinct elements of `l`. -/
def takeDistinct [DecidableEq K] (c : Nat) (l : List K) : List K :=
  (dedupKeys l).take c

/-! ### Cache operations -/

/-- One public cache call: `put(key, value)` or the boolean `get(key, value&)`. -/
inductive CacheOp (K V : Type) where
  | put (k : K) (v : V)
  | get (k : K)
  deriving DecidableEq

/-- Number of operations in `ops` whose key argument is `k` (puts and gets). -/
def touchCount [DecidableEq K] (k : K) : List (CacheOp K V) → Nat
  | [] => 0
  | .put j _ :: ops => (if j = k then 1 else 0) + touchCount k ops
  | .get j :: ops => (if j = k then 1 else 0) + touchCount k ops

/-! ### LRUCache (src/LRUCache.h, lines 45-139)

State: `capacity_` and the circular list, front = most recently used.
`nodemap_` maps exactly the keys of the list to their nodes, so it is
represented by the list itself. -/

structure LRUCache (K V : Type) where
  capacity : Nat
  list : List (K × V)
  deriving DecidableEq

/-- Lookup in `nodemap_` (`find` on the unordered map). -/
def lruFind [DecidableEq K] : List (K × V) → K → Option V
  | [], _ => none
  | p :: l, k => if p.1 = k then some p.2 else lruFind l k

/-- `removeNode` of the node with key `k` together with `nodemap_.erase`. -/
def lruErase [DecidableEq K] : List (K × V) → K → List (K × V)
  | [], _ => []
  | p :: l, k => if p.1 = k then lruErase l k else p :: lruErase l k

/-- `LRUCache::put` (lines 92-112): no-op when `capacity_ <= 0`; a found key
is moved to the front by `getNode` and its value overwritten; a new node is
inserted at the front, and when the map then exceeds capacity the node
before the dummy (the last of the list) is evicted. -/
def LRUCache.put [DecidableEq K] (s : LRUCache K V) (k : K) (v : V) : LRUCache K V :=
  if s.capacity = 0 then s
  else
    match lruFind s.list k with
    | some _ => ⟨s.capacity, (k, v) :: lruErase s.list k⟩
    | none =>
      let l := (k, v) :: s.list
      ⟨s.capacity, if s.capacity < l.length then l.dropLast else l⟩

/-- `LRUCache::get(key, value&)` (lines 121-130): `getNode` moves a found
node to the front; `some v` is `return true` with `value = v`. -/
def LRUCache.get [DecidableEq K] (s : LRUCache K V) (k : K) : Option V × LRUCache K V :=
  match lruFind s.list k with
  | none => (none, s)
  | some v => (some v, ⟨s.capacity, (k, v) :: lruErase s.list k⟩)

/-- `Value LRUCache::get(Key)` (lines 114-119): default-initialises a value
(`dflt` stands for `Value()`) and runs the boolean `get`. -/
def LRUCache.getValue [DecidableEq K] (s : LRUCache K V) (k : K) (dflt : V) :
    V × LRUCache K V :=
  ((s.get k).1.getD dflt, (s.get k).2)

/-- `LRUCache::remove` (lines 132-138): `getNode` moves the node to the
front, then it is unlinked and erased; the net effect removes the key. -/
def LRUCache.remove [DecidableEq K] (s : LRUCache K V) (k : K) : LRUCache K V :=
  ⟨s.capacity, lruErase s.list k⟩

def LRUCache.step [DecidableEq K] (s : LRUCache K V) : CacheOp K V → LRUCache K V
  | .put k v => s.put k v
  | .get k => (s.get k).2

def LRUCache.run [DecidableEq K] (s : LRUCache K V) : List (CacheOp K V) → LRUCache K V
  | [] => s
  | op :: ops => (s.step op).run ops

/-- The resident keys, most recently used first. -/
def LRUCache.keys (s : LRUCache K V) : List K := s.list.map (fun p => p.1)

/-- The empty cache the constructor (lines 83-88) builds. -/
def LRUCache.init (capacity : Nat) : LRUCache K V := ⟨capacity, []⟩

/-- The most-recent-first log of the touched keys of an operation sequence:
a `put` always touches its key, a `get` touches its key exactly when it hits
(the key is among the `c` most recently touched distinct keys). -/
def touchLog [DecidableEq K] (c : Nat) : List (CacheOp K V) → List K → List K
  | [], acc => acc
  | .put k _ :: ops, acc => touchLog c ops (k :: acc)
  | .get k :: ops, acc =>
      touchLog c ops (if k ∈ takeDistinct c acc then k :: acc else acc)

/-! ### LRUKCache (src/LRUCache.h, lines 141-180)

Derives from `LRUCache` (the primary cache) and owns a second
`LRUCache<Key, size_t>` of access counts (`historyList_`).  The value-form
`get` used on `historyList_` default-initialises a `size_t`, modelled as 0;
the promotion check in `put` compares the primary's value-form `get` result
against `""` (`Value()`), modelled by the explicit default `emptyV`. -/

structure LRUKCache (K V : Type) where
  k_ : Nat
  primary : LRUCache K V
  historyList_ : LRUCache K Nat
  deriving DecidableEq

/-- `LRUKCache(capacity, historyCapacity, k)` (lines 148-152). -/
def LRUKCache.init (capacity historyCapacity k : Nat) : LRUKCache K V :=
  ⟨k, ⟨capacity, []⟩, ⟨historyCapacity, []⟩⟩

/-- `LRUKCache::get(key, value&)` (lines 161-166): bump the history count,
then answer from the primary cache. -/
def LRUKCache.get [DecidableEq K] (s : LRUKCache K V) (key : K) :
    Option V × LRUKCache K V :=
  let hg := s.historyList_.getValue key 0
  let h2 := hg.2.put key (hg.1 + 1)
  let pr := s.primary.get key
  (pr.1, ⟨s.k_, pr.2, h2⟩)

/-- `LRUKCache::put` (lines 168-179): update the primary in place when its
value-form `get` is not `Value()`; bump the history count; when the bumped
count reaches `k_`, drop the history record and insert into the primary. -/
def LRUKCache.put [DecidableEq K] [DecidableEq V] (s : LRUKCache K V) (key : K)
    (value : V) (emptyV : V) : LRUKCache K V :=
  let pg := s.primary.getValue key emptyV
  let p1 := if pg.1 ≠ emptyV then pg.2.put key value else pg.2
  let hc := (s.historyList_.getValue key 0).1 + 1
  let h1 := (s.historyList_.getValue key 0).2.put key hc
  if s.k_ ≤ hc then ⟨s.k_, p1.put key value, h1.remove key⟩
  else ⟨s.k_, p1, h1⟩

def LRUKCache.step [DecidableEq K] [DecidableEq V] (emptyV : V)
    (s : LRUKCache K V) : CacheOp K V → LRUKCache K V
  | .put k v => s.put k v emptyV
  | .get k => (s.get k).2

def LRUKCache.run [DecidableEq K] [DecidableEq V] (emptyV : V)
    (s : LRUKCache K V) : List (CacheOp K V) → LRUKCache K V
  | [] => s
  | op :: ops => LRUKCache.run emptyV (LRUKCache.step emptyV s op) ops

/-- A history cache holding exactly one record, key `k` with access count
`c` (no record at all when `c = 0`): the shape `historyList_` has after `c`
touches of a single key. -/
def histSingle (hc : Nat) (k : K) (c : Nat) : LRUCache K Nat :=
  ⟨hc, if c = 0 then [] else [(k, c)]⟩

/-! ### HashLRUCaches (src/LRUCache.h, lines 182-222) -/

/-- `ceil(capacity / (double)sliceNum)` of the constructor (line 199) as a
ceiling division on `Nat` (exact for the sizes a `double` represents). -/
def ceilDiv (c n : Nat) : Nat := (c + n - 1) / n

structure HashLRUCaches (K V : Type) where
  capacity_ : Nat
  sliceNum_ : Nat
  lruCaches_ : List (LRUCache K V)
  deriving DecidableEq

/-- The constructor (lines 196-206): `sliceNum` shards, each an `LRUCache`
of capacity `ceil(capacity / sliceNum)`. -/
def HashLRUCaches.init (capacity sliceNum : Nat) : HashLRUCaches K V :=
  ⟨capacity, sliceNum, List.replicate sliceNum ⟨ceilDiv capacity sliceNum, []⟩⟩

/-- `HashLRUCaches::put` (lines 208-211); `h` models `std::hash<Key>`. -/
def HashLRUCaches.put [DecidableEq K] (h : K → Nat) (s : HashLRUCaches K V)
    (k : K) (v : V) : HashLRUCaches K V :=
  let i := h k % s.sliceNum_
  ⟨s.capacity_, s.sliceNum_,
    s.lruCaches_.set i ((s.lruCaches_.getD i ⟨0, []⟩).put k v)⟩

/-- `HashLRUCaches::get(key, value&)` (lines 213-216). -/
def HashLRUCaches.get [DecidableEq K] (h : K → Nat) (s : HashLRUCaches K V)
    (k : K) : Option V × HashLRUCaches K V :=
  let i := h k % s.sliceNum_
  let r := (s.lruCaches_.getD i ⟨0, []⟩).get k
  (r.1, ⟨s.capacity_, s.sliceNum_, s.lruCaches_.set i r.2⟩)

def HashLRUCaches.step [DecidableEq K] (h : K → Nat) (s : HashLRUCaches K V) :
    CacheOp K V → HashLRUCaches K V
  | .put k v => s.put h k v
  | .get k => (s.get h k).2

def HashLRUCaches.run [DecidableEq K] (h : K → Nat) (s : HashLRUCaches K V) :
    List (CacheOp K V) → HashLRUCaches K V
  | [] => s
  | op :: ops => HashLRUCaches.run h (s.step h op) ops

/-- Total number of resident entries over all shards. -/
def HashLRUCaches.totalResident (s : HashLRUCaches K V) : Nat :=
  (s.lruCaches_.map (fun c => c.list.length)).sum

/-! ### LFUCache (src/LFUCache.h, lines 39-136)

`keyNodeMap_` maps a key to its node `(value, accessCount)`; every node
lives in the frequency bucket indexed by its `accessCount` (all insertions
go through `moveToFront(freq, node)` right after the count is set), so the
buckets store keys and the map stores the node fields.  `freqNodeMap_` keeps
empty buckets around, exactly as the C++ keeps their dummies. -/

/-- Lookup in `keyNodeMap_`: the node's `(value, accessCount)`. -/
def findEntry [DecidableEq K] : List (K × V × Nat) → K → Option (V × Nat)
  | [], _ => none
  | e :: es, k => if e.1 = k then some e.2 else findEntry es k

/-- `keyNodeMap_.erase(k)`. -/
def eraseEntry [DecidableEq K] : List (K × V × Nat) → K → List (K × V × Nat)
  | [], _ => []
  | e :: es, k => if e.1 = k then eraseEntry es k else e :: eraseEntry es k

/-- In-place mutation of the node of key `k` (`node->value = ...`,
`node->accessCount++`). -/
def mapEntry [DecidableEq K] (g : V × Nat → V × Nat) :
    List (K × V × Nat) → K → List (K × V × Nat)
  | [], _ => []
  | e :: es, k =>
      if e.1 = k then (e.1, g e.2) :: mapEntry g es k else e :: mapEntry g es k

/-- `freqNodeMap_.find(f)`: the bucket's list of keys, front = most recently
inserted into the bucket (right after the dummy). -/
def bucketFind : List (Nat × List K) → Nat → Option (List K)
  | [], _ => none
  | b :: bs, f => if b.1 = f then some b.2 else bucketFind bs f

/-- `freqNodeMap_[f] = l` (update or insert the bucket). -/
def bucketSet : List (Nat × List K) → Nat → List K → List (Nat × List K)
  | [], f, l => [(f, l)]
  | b :: bs, f, l => if b.1 = f then (f, l) :: bs else b :: bucketSet bs f l

/-- The bucket of frequency `f`, empty when never created. -/
def bucketList (fm : List (Nat × List K)) (f : Nat) : List K :=
  (bucketFind fm f).getD []

/-- `moveToFront(freq, x)` (lines 58-68): create the bucket's dummy when the
frequency is new, then link `x` right after the dummy. -/
def lfuMoveToFront [DecidableEq K] (fm : List (Nat × List K)) (freq : Nat)
    (k : K) : List (Nat × List K) :=
  match bucketFind fm freq with
  | none => bucketSet fm freq [k]
  | some l => bucketSet fm freq (k :: l)

/-- `removeNode(x)` (lines 53-56) for the node of key `k`, which lives in
the bucket of its `accessCount` `f`. -/
def lfuRemoveNode [DecidableEq K] (fm : List (Nat × List K)) (f : Nat)
    (k : K) : List (Nat × List K) :=
  match bucketFind fm f with
  | none => fm
  | some l => bucketSet fm f (filterNe k l)

structure LFUCache (K V : Type) where
  minFreq_ : Nat
  capacity_ : Nat
  keyNodeMap_ : List (K × V × Nat)
  freqNodeMap_ : List (Nat × List K)
  deriving DecidableEq

/-- The state the constructor (lines 91-93) builds: `minFreq_` is left
uninitialised, modelled by the arbitrary `m0`. -/
def LFUCache.init (capacity m0 : Nat) : LFUCache K V := ⟨m0, capacity, [], []⟩

/-- `LFUCache::getNode` (lines 77-88): on a hit, bump `minFreq_` when the
node is alone in the `minFreq_` bucket (`node->prev == node->next`), unlink
the node, increment its count and insert it at the front of the next bucket. -/
def LFUCache.getNode [DecidableEq K] (s : LFUCache K V) (k : K) :
    Option V × LFUCache K V :=
  match findEntry s.keyNodeMap_ k with
  | none => (none, s)
  | some (v, f) =>
    let mf :=
      if f = s.minFreq_ ∧ (bucketList s.freqNodeMap_ f).length = 1 then
        s.minFreq_ + 1
      else s.minFreq_
    let fm := lfuMoveToFront (lfuRemoveNode s.freqNodeMap_ f k) (f + 1) k
    (some v,
      ⟨mf, s.capacity_, mapEntry (fun p => (p.1, p.2 + 1)) s.keyNodeMap_ k, fm⟩)

/-- `LFUCache::get(key, value&)` (lines 97-108): miss when `capacity_ <= 0`,
otherwise a `getNode` touch. -/
def LFUCache.get [DecidableEq K] (s : LFUCache K V) (k : K) :
    Option V × LFUCache K V :=
  if s.capacity_ = 0 then (none, s) else s.getNode k

/-- `LFUCache::put` (lines 116-135).  No capacity guard: when
`keyNodeMap_.size() == capacity_` (so also on an empty capacity-0 cache) it
evicts `freqNodeMap_[minFreq_]->prev`.  When that bucket was never created,
`operator[]` inserts a null pointer and `->prev` faults (`none`).  When the
bucket exists but is empty, `->prev` is the dummy itself: unlinking it does
nothing and `erase(node->key)` erases the default key `Key()`. -/
def LFUCache.put [DecidableEq K] [Inhabited K] (s : LFUCache K V) (k : K)
    (v : V) : Option (LFUCache K V) :=
  match s.getNode k with
  | (some _, s1) =>
      some ⟨s1.minFreq_, s1.capacity_,
        mapEntry (fun p => (v, p.2)) s1.keyNodeMap_ k, s1.freqNodeMap_⟩
  | (none, _) =>
    let afterEvict : Option (LFUCache K V) :=
      if s.keyNodeMap_.length = s.capacity_ then
        match bucketFind s.freqNodeMap_ s.minFreq_ with
        | none => none
        | some l =>
          match l.getLast? with
          | none =>
              some ⟨s.minFreq_, s.capacity_,
                eraseEntry s.keyNodeMap_ default, s.freqNodeMap_⟩
          | some ek =>
              some ⟨s.minFreq_, s.capacity_, eraseEntry s.keyNodeMap_ ek,
                bucketSet s.freqNodeMap_ s.minFreq_ l.dropLast⟩
      else some s
    afterEvict.map fun s1 =>
      ⟨1, s1.capacity_, (k, v, 1) :: s1.keyNodeMap_,
        lfuMoveToFront s1.freqNodeMap_ 1 k⟩

def LFUCache.step [DecidableEq K] [Inhabited K] (s : LFUCache K V) :
    CacheOp K V → Option (LFUCache K V)
  | .put k v => s.put k v
  | .get k => some (s.get k).2

def LFUCache.run [DecidableEq K] [Inhabited K] (s : LFUCache K V) :
    List (CacheOp K V) → Option (LFUCache K V)
  | [] => some s
  | op :: ops =>
    match s.step op with
    | none => none
    | some s1 => s1.run ops

/-- The well-formedness invariant of a reachable `LFUCache` state: distinct
keys; every count at least 1; the bucket of `f` holds exactly the keys whose
node count is `f`, without repetition; when the cache is non-empty the
`minFreq_` bucket is non-empty and `minFreq_` bounds every count from below;
the map never exceeds capacity. -/
def LFUCache.Inv [DecidableEq K] (s : LFUCache K V) : Prop :=
  (s.keyNodeMap_.map (fun e => e.1)).Nodup ∧
  (∀ e ∈ s.keyNodeMap_, 1 ≤ e.2.2) ∧
  (∀ f k, k ∈ bucketList s.freqNodeMap_ f ↔ ∃ v, (k, v, f) ∈ s.keyNodeMap_) ∧
  (∀ f, (bucketList s.freqNodeMap_ f).Nodup) ∧
  (s.keyNodeMap_ ≠ [] →
    bucketList s.freqNodeMap_ s.minFreq_ ≠ [] ∧
      ∀ e ∈ s.keyNodeMap_, s.minFreq_ ≤ e.2.2) ∧
  s.keyNodeMap_.length ≤ s.capacity_ ∧
  (s.keyNodeMap_ = [] → s.freqNodeMap_ = [])

/-! ### LFUCachePro (src/LFUCache.h, lines 138-276)

The aging variant.  `size_t` wraparound is modelled where it is reachable:
`usub` is 64-bit wrapping subtraction, `uadd` 64-bit wrapping addition.
Every `curTotalNum_ / keyNodeMap_.size()` is modelled as a fault (`none`)
when the map is empty, since C++ integer division by zero is UB. -/

/-- `2^64`, the modulus of `size_t` arithmetic. -/
def U64 : Nat := 18446744073709551616

/-- Wrapping `size_t` subtraction `a - b` (for `a, b < 2^64`). -/
def usub (a b : Nat) : Nat := if b ≤ a then a - b else a + U64 - b

/-- Wrapping `size_t` addition. -/
def uadd (a b : Nat) : Nat := (a + b) % U64

structure LFUCachePro (K V : Type) where
  minFreq_ : Nat
  capacity_ : Nat
  maxAverageNum_ : Nat
  curAverageNum_ : Nat
  curTotalNum_ : Nat
  keyNodeMap_ : List (K × V × Nat)
  freqNodeMap_ : List (Nat × List K)
  deriving DecidableEq

/-- `LFUCachePro(capacity, maxAverageNum)` (lines 225-230); `minFreq_` is
uninitialised (`m0`). -/
def LFUCachePro.init (capacity maxAverageNum m0 : Nat) : LFUCachePro K V :=
  ⟨m0, capacity, maxAverageNum, 0, 0, [], []⟩

/-- The loop body of `handleFreqOverflow` (lines 209-218) over the map
entries: unlink each node, subtract `maxAverageNum_/2` from its count
(`size_t` subtraction, then the `< 1` clamp), accumulate the running
minimum and the wrapped running total, and reinsert the node.  Returns the
rewritten map, the rewritten buckets, `updateMinFreq` and `updateTotalNum`. -/
def overflowStep [DecidableEq K] (half : Nat) :
    List (K × V × Nat) → List (Nat × List K) → Nat → Nat →
      List (K × V × Nat) × List (Nat × List K) × Nat × Nat
  | [], fm, updMin, updTot => ([], fm, updMin, updTot)
  | (k, v, f) :: es, fm, updMin, updTot =>
    let d := usub f half
    let nf := if d < 1 then 1 else d
    let fm2 := lfuMoveToFront (lfuRemoveNode fm f k) nf k
    let r := overflowStep half es fm2 (min updMin nf) (uadd updTot nf)
    ((k, v, nf) :: r.1, r.2.1, r.2.2.1, r.2.2.2)

/-- `handleFreqOverflow` (lines 205-222): run the pass, then recompute
`minFreq_`, `curTotalNum_` and `curAverageNum_` (the final division is by
`keyNodeMap_.size()`). `updateMinFreq` starts at `SIZE_MAX`. -/
def LFUCachePro.handleFreqOverflow [DecidableEq K] (s : LFUCachePro K V) :
    Option (LFUCachePro K V) :=
  let r := overflowStep (s.maxAverageNum_ / 2) s.keyNodeMap_ s.freqNodeMap_
    (U64 - 1) 0
  if r.1.length = 0 then none
  else
    some ⟨r.2.2.1, s.capacity_, s.maxAverageNum_, r.2.2.2 / r.1.length,
      r.2.2.2, r.1, r.2.1⟩

/-- `increaseFreqNum` (lines 192-198): `curTotalNum_++`, recompute the
average, rebalance when it exceeds `maxAverageNum_`. -/
def LFUCachePro.increaseFreqNum [DecidableEq K] (s : LFUCachePro K V) :
    Option (LFUCachePro K V) :=
  if s.keyNodeMap_.length = 0 then none
  else
    let total := uadd s.curTotalNum_ 1
    let avg := total / s.keyNodeMap_.length
    let s1 : LFUCachePro K V :=
      { s with curTotalNum_ := total, curAverageNum_ := avg }
    if s1.maxAverageNum_ < avg then s1.handleFreqOverflow else some s1

/-- `decreaseFreqNum` (lines 200-203): `curTotalNum_ -= num` (wrapping),
then divide by `keyNodeMap_.size()` with no emptiness guard. -/
def LFUCachePro.decreaseFreqNum [DecidableEq K] (s : LFUCachePro K V)
    (num : Nat) : Option (LFUCachePro K V) :=
  if s.keyNodeMap_.length = 0 then none
  else
    let total := usub s.curTotalNum_ num
    some { s with
            curTotalNum_ := total,
            curAverageNum_ := total / s.keyNodeMap_.length }

/-- `LFUCachePro::getNode` (lines 178-190): the `LFUCache` touch followed by
`increaseFreqNum`. -/
def LFUCachePro.getNode [DecidableEq K] (s : LFUCachePro K V) (k : K) :
    Option (Option V × LFUCachePro K V) :=
  match findEntry s.keyNodeMap_ k with
  | none => some (none, s)
  | some (v, f) =>
    let mf :=
      if f = s.minFreq_ ∧ (bucketList s.freqNodeMap_ f).length = 1 then
        s.minFreq_ + 1
      else s.minFreq_
    let fm := lfuMoveToFront (lfuRemoveNode s.freqNodeMap_ f k) (f + 1) k
    let s1 : LFUCachePro K V :=
      { s with
          minFreq_ := mf,
          keyNodeMap_ := mapEntry (fun p => (p.1, p.2 + 1)) s.keyNodeMap_ k,
          freqNodeMap_ := fm }
    s1.increaseFreqNum.map fun s2 => (some v, s2)

/-- `LFUCachePro::get(key, value&)` (lines 234-245). -/
def LFUCachePro.get [DecidableEq K] (s : LFUCachePro K V) (k : K) :
    Option (Option V × LFUCachePro K V) :=
  if s.capacity_ = 0 then some (none, s) else s.getNode k

/-- `LFUCachePro::put` (lines 253-274): like `LFUCache::put` but eviction is
followed by `decreaseFreqNum(node->accessCount)` (a node in the `minFreq_`
bucket has `accessCount == minFreq_`; a dummy has `accessCount == 1`), and
insertion by `increaseFreqNum`. -/
def LFUCachePro.put [DecidableEq K] [Inhabited K] (s : LFUCachePro K V)
    (k : K) (v : V) : Option (LFUCachePro K V) :=
  match s.getNode k with
  | none => none
  | some (some _, s1) =>
      some { s1 with
        keyNodeMap_ := mapEntry (fun p => (v, p.2)) s1.keyNodeMap_ k }
  | some (none, _) =>
    let afterEvict : Option (LFUCachePro K V) :=
      if s.keyNodeMap_.length = s.capacity_ then
        match bucketFind s.freqNodeMap_ s.minFreq_ with
        | none => none
        | some l =>
          match l.getLast? with
          | none =>
              LFUCachePro.decreaseFreqNum
                { s with keyNodeMap_ := eraseEntry s.keyNodeMap_ default } 1
          | some ek =>
              LFUCachePro.decreaseFreqNum
                { s with
                    keyNodeMap_ := eraseEntry s.keyNodeMap_ ek,
                    freqNodeMap_ := bucketSet s.freqNodeMap_ s.minFreq_
                      l.dropLast }
                s.minFreq_
      else some s
    afterEvict.bind fun s1 =>
      LFUCachePro.increaseFreqNum
        { s1 with
            minFreq_ := 1,
            keyNodeMap_ := (k, v, 1) :: s1.keyNodeMap_,
            freqNodeMap_ := lfuMoveToFront s1.freqNodeMap_ 1 k }

def LFUCachePro.step [DecidableEq K] [Inhabited K] (s : LFUCachePro K V) :
    CacheOp K V → Option (LFUCachePro K V)
  | .put k v => s.put k v
  | .get k => (s.get k).map (fun r => r.2)

def LFUCachePro.run [DecidableEq K] [Inhabited K] (s : LFUCachePro K V) :
    List (CacheOp K V) → Option (LFUCachePro K V)
  | [] => some s
  | op :: ops =>
    match s.step op with
    | none => none
    | some s1 => s1.run ops

/-! ### Lemmas about the list helpers -/

theorem mem_filterNe [DecidableEq K] (k x : K) (l : List K) :
    x ∈ filterNe k l ↔ x ∈ l ∧ x ≠ k := by
  induction l with
  | nil => simp [filterNe]
  | cons a l ih =>
    by_cases h : a = k <;> simp [filterNe, h, ih] <;> aesop

theorem filterNe_of_not_mem [DecidableEq K] {k : K} {l : List K}
    (h : k ∉ l) : filterNe k l = l := by
  induction l with
  | nil => rfl
  | cons a l ih =>
    simp only [List.mem_cons, not_or] at h
    simp [filterNe, Ne.symm h.1, ih h.2]

theorem filterNe_eq_filter [DecidableEq K] (k : K) (l : List K) :
    filterNe k l = l.filter (fun x => decide ¬(x = k)) := by
  induction l with
  | nil => rfl
  | cons a l ih => by_cases h : a = k <;> simp [filterNe, h, ih]

theorem filterNe_comm [DecidableEq K] (a b : K) (l : List K) :
    filterNe a (filterNe b l) = filterNe b (filterNe a l) := by
  induction l with
  | nil => rfl
  | cons x l ih =>
    by_cases hxa : x = a <;> by_cases hxb : x = b
    · subst hxa hxb; simp [filterNe, ih]
    · subst hxa
      rw [filterNe, if_neg hxb, filterNe, if_pos rfl, filterNe, if_pos rfl, ih]
    · subst hxb
      rw [filterNe, if_pos rfl, filterNe, if_neg hxa, filterNe, if_pos rfl, ih]
    · rw [filterNe, if_neg hxb, filterNe, if_neg hxa, filterNe, if_neg hxa,
        filterNe, if_neg hxb, ih]

theorem filterNe_self_idem [DecidableEq K] (k : K) (l : List K) :
    filterNe k (filterNe k l) = filterNe k l :=
  filterNe_of_not_mem (by simp [mem_filterNe])

theorem length_filterNe_le [DecidableEq K] (k : K) (l : List K) :
    (filterNe k l).length ≤ l.length := by
  induction l with
  | nil => simp [filterNe]
  | cons a l ih =>
    by_cases h : a = k <;> simp [filterNe, h] <;> omega

theorem nodup_filterNe [DecidableEq K] (k : K) {l : List K}
    (h : l.Nodup) : (filterNe k l).Nodup := by
  induction l with
  | nil => simp [filterNe]
  | cons a l ih =>
    simp only [List.nodup_cons] at h
    by_cases ha : a = k
    · simp [filterNe, ha, ih h.2]
    · simp only [filterNe, ha, if_false, List.nodup_cons]
      exact ⟨fun hm => h.1 ((mem_filterNe _ _ _).1 hm).1, ih h.2⟩

theorem ddAux_congr [DecidableEq K] {s1 s2 : List K} (l : List K)
    (h : ∀ x, x ∈ s1 ↔ x ∈ s2) : ddAux l s1 = ddAux l s2 := by
  induction l generalizing s1 s2 with
  | nil => rfl
  | cons a l ih =>
    by_cases ha : a ∈ s1
    · rw [ddAux, if_pos ha, ddAux, if_pos ((h a).1 ha)]
      exact ih h
    · have ha2 : a ∉ s2 := fun hx => ha ((h a).2 hx)
      rw [ddAux, if_neg ha, ddAux, if_neg ha2]
      exact congrArg _ (ih fun x => by simp [h x])

theorem ddAux_cons_seen [DecidableEq K] (k : K) (l : List K) :
    ∀ seen : List K, ddAux l (k :: seen) = filterNe k (ddAux l seen) := by
  induction l with
  | nil => intro seen; rfl
  | cons a l ih =>
    intro seen
    by_cases ha : a ∈ seen
    · rw [ddAux, if_pos (List.mem_cons_of_mem k ha), ddAux, if_pos ha, ih]
    · by_cases hak : a = k
      · subst hak
        rw [ddAux, if_pos (List.mem_cons_self a seen), ddAux, if_neg ha,
          filterNe, if_pos rfl, ih, filterNe_self_idem]
      · rw [ddAux, if_neg (by simp [hak, ha]), ddAux, if_neg ha, filterNe,
          if_neg hak]
        have hswap : ddAux l (a :: k :: seen) = ddAux l (k :: a :: seen) :=
          ddAux_congr l (fun x => by constructor <;> (intro hx; simp at hx ⊢; tauto))
        rw [hswap, ih (a :: seen)]

theorem dedupKeys_cons [DecidableEq K] (k : K) (l : List K) :
    dedupKeys (k :: l) = k :: filterNe k (dedupKeys l) := by
  rw [dedupKeys, ddAux, if_neg (List.not_mem_nil k), ddAux_cons_seen]
  rfl

theorem mem_ddAux [DecidableEq K] (x : K) (l : List K) :
    ∀ seen : List K, x ∈ ddAux l seen ↔ x ∈ l ∧ x ∉ seen := by
  induction l with
  | nil => intro seen; simp [ddAux]
  | cons a l ih =>
    intro seen
    by_cases ha : a ∈ seen
    · rw [ddAux, if_pos ha, ih]
      constructor
      · rintro ⟨hx, hxs⟩
        exact ⟨List.mem_cons_of_mem a hx, hxs⟩
      · rintro ⟨hx, hxs⟩
        rcases List.mem_cons.1 hx with rfl | hx
        · exact absurd ha hxs
        · exact ⟨hx, hxs⟩
    · rw [ddAux, if_neg ha]
      by_cases hxa : x = a
      · subst hxa; simp [ha]
      · simp [List.mem_cons, hxa, ih]

theorem mem_dedupKeys [DecidableEq K] (x : K) (l : List K) :
    x ∈ dedupKeys l ↔ x ∈ l := by
  rw [dedupKeys, mem_ddAux]
  simp

theorem nodup_dedupKeys [DecidableEq K] (l : List K) :
    (dedupKeys l).Nodup := by
  induction l with
  | nil => simp [dedupKeys, ddAux]
  | cons a l ih =>
    rw [dedupKeys_cons]
    exact List.nodup_cons.2 ⟨by simp [mem_filterNe], nodup_filterNe _ ih⟩

theorem dedupKeys_filterNe [DecidableEq K] (k : K) (l : List K) :
    dedupKeys (filterNe k l) = filterNe k (dedupKeys l) := by
  induction l with
  | nil => rfl
  | cons a l ih =>
    by_cases hak : a = k
    · subst hak
      rw [filterNe, if_pos rfl, ih, dedupKeys_cons, filterNe, if_pos rfl,
        filterNe_self_idem]
    · rw [filterNe, if_neg hak, dedupKeys_cons, dedupKeys_cons, ih,
        filterNe, if_neg hak, filterNe_comm]

theorem dropLast_take_succ {α : Type} {l : List α} {n : Nat}
    (h : n + 1 ≤ l.length) : (l.take (n + 1)).dropLast = l.take n := by
  rcases Nat.lt_or_ge (n + 1) l.length with hlt | hge
  · rw [List.dropLast_take hlt]
    simp
  · have hlen : l.length = n + 1 := Nat.le_antisymm hge h
    rw [List.take_of_length_le (Nat.le_of_eq hlen), List.dropLast_eq_take,
      hlen]
    simp

theorem filterNe_take_of_mem [DecidableEq K] {k : K} {d : List K} {n : Nat}
    (hnd : d.Nodup) (hk : k ∈ d.take (n + 1)) :
    filterNe k (d.take (n + 1)) = (filterNe k d).take n := by
  induction d generalizing n with
  | nil => simp at hk
  | cons a d ih =>
    simp only [List.nodup_cons] at hnd
    rw [List.take_succ_cons]
    by_cases hka : k = a
    · subst hka
      have h1 : k ∉ d.take n := fun hm => hnd.1 (List.mem_of_mem_take hm)
      rw [filterNe, if_pos rfl, filterNe_of_not_mem h1, filterNe, if_pos rfl,
        filterNe_of_not_mem hnd.1]
    · have hk2 : k ∈ d.take n := by
        rw [List.take_succ_cons] at hk
        rcases List.mem_cons.1 hk with h | h
        · exact absurd h hka
        · exact h
      cases n with
      | zero => simp at hk2
      | succ m =>
        rw [filterNe, if_neg (Ne.symm hka), filterNe, if_neg (Ne.symm hka),
          List.take_succ_cons, ih hnd.2 hk2]

theorem filterNe_take_of_not_mem [DecidableEq K] {k : K} {d : List K}
    {n : Nat} (hk : k ∉ d.take (n + 1)) (hlen : n + 1 ≤ d.length) :
    (filterNe k d).take n = d.take n := by
  induction d generalizing n with
  | nil => simp at hlen
  | cons a d ih =>
    rw [List.take_succ_cons] at hk
    simp only [List.mem_cons, not_or] at hk
    rw [filterNe, if_neg (fun h => hk.1 h.symm)]
    cases n with
    | zero => simp
    | succ m =>
      rw [List.take_succ_cons, List.take_succ_cons,
        ih hk.2 (by simp only [List.length_cons] at hlen; omega)]

/-! ### Lemmas about `LRUCache` -/

theorem keys_lruErase [DecidableEq K] (l : List (K × V)) (k : K) :
    (lruErase l k).map (fun p => p.1) = filterNe k (l.map fun p => p.1) := by
  induction l with
  | nil => rfl
  | cons p l ih =>
    by_cases h : p.1 = k <;> simp [lruErase, filterNe, h, ih]

theorem lruFind_eq_none_iff [DecidableEq K] (l : List (K × V)) (k : K) :
    lruFind l k = none ↔ k ∉ l.map (fun p => p.1) := by
  induction l with
  | nil => simp [lruFind]
  | cons p l ih =>
    by_cases h : p.1 = k <;> simp [lruFind, h, ih] <;> aesop

theorem lruFind_mem [DecidableEq K] {l : List (K × V)} {k : K} {v : V}
    (h : lruFind l k = some v) : k ∈ l.map (fun p => p.1) := by
  by_contra hk
  rw [← lruFind_eq_none_iff] at hk
  rw [h] at hk
  exact Option.noConfusion hk

theorem length_lruErase_lt [DecidableEq K] {l : List (K × V)} {k : K} {v : V}
    (h : lruFind l k = some v) : (lruErase l k).length < l.length := by
  induction l with
  | nil => exact absurd h (by simp [lruFind])
  | cons p l ih =>
    by_cases hp : p.1 = k
    · have : (lruErase l k).length ≤ l.length := by
        clear h ih
        induction l with
        | nil => simp [lruErase]
        | cons q l ihq =>
          by_cases hq : q.1 = k <;> simp [lruErase, hq] <;> omega
      simp only [lruErase, hp, if_true, List.length_cons]
      omega
    · rw [lruFind, if_neg hp] at h
      simp only [lruErase, hp, if_false, List.length_cons]
      exact Nat.succ_lt_succ (ih h)

theorem LRUCache.put_capacity [DecidableEq K] (s : LRUCache K V) (k : K)
    (v : V) : (s.put k v).capacity = s.capacity := by
  rw [LRUCache.put]
  split
  · rfl
  · split <;> rfl

theorem LRUCache.get_capacity [DecidableEq K] (s : LRUCache K V) (k : K) :
    ((s.get k).2).capacity = s.capacity := by
  rw [LRUCache.get]
  split <;> rfl

theorem LRUCache.keys_put_takeDistinct [DecidableEq K] {s : LRUCache K V}
    {n : Nat} {acc : List K} (k : K) (v : V) (hcap : s.capacity = n + 1)
    (hkeys : s.keys = takeDistinct (n + 1) acc) :
    (s.put k v).keys = takeDistinct (n + 1) (k :: acc) := by
  have hrhs : takeDistinct (n + 1) (k :: acc) =
      k :: (filterNe k (dedupKeys acc)).take n := by
    rw [takeDistinct, dedupKeys_cons, List.take_succ_cons]
  rw [LRUCache.put, hcap, if_neg (Nat.succ_ne_zero n)]
  cases hfind : lruFind s.list k with
  | some v0 =>
    have hk : k ∈ s.keys := lruFind_mem hfind
    rw [hkeys, takeDistinct] at hk
    show (⟨n + 1, (k, v) :: lruErase s.list k⟩ : LRUCache K V).keys = _
    rw [LRUCache.keys] at hkeys ⊢
    rw [List.map_cons, keys_lruErase, hkeys, takeDistinct,
      filterNe_take_of_mem (nodup_dedupKeys acc) hk, hrhs]
  | none =>
    have hk : k ∉ s.keys := (lruFind_eq_none_iff s.list k).1 hfind
    have hlenkeys : s.keys.length = s.list.length := by
      rw [LRUCache.keys, List.length_map]
    show (⟨n + 1, if n + 1 < ((k, v) :: s.list).length
        then ((k, v) :: s.list).dropLast else (k, v) :: s.list⟩ :
      LRUCache K V).keys = _
    by_cases hev : n + 1 < ((k, v) :: s.list).length
    · rw [if_pos hev]
      have hlen : n + 1 ≤ s.list.length := by
        simp only [List.length_cons] at hev
        omega
      have hdlen : n + 1 ≤ (dedupKeys acc).length := by
        have := congrArg List.length hkeys
        rw [hlenkeys, takeDistinct, List.length_take] at this
        omega
      show (((k, v) :: s.list).dropLast).map (fun p => p.1) = _
      rw [List.map_dropLast, List.map_cons,
        List.dropLast_cons_of_ne_nil (by
          intro h
          rw [LRUCache.keys, h] at hlenkeys
          simp at hlenkeys
          omega)]
      have hk2 : k ∉ List.take (n + 1) (dedupKeys acc) := by
        have hkeys2 := hkeys
        rw [LRUCache.keys] at hkeys2
        rw [LRUCache.keys, hkeys2, takeDistinct] at hk
        exact hk
      rw [LRUCache.keys] at hkeys
      rw [hkeys, takeDistinct, dropLast_take_succ hdlen, hrhs,
        filterNe_take_of_not_mem hk2 hdlen]
    · rw [if_neg hev]
      have hlen : s.list.length ≤ n := by
        simp only [List.length_cons] at hev
        omega
      have hdlen : (dedupKeys acc).length ≤ n := by
        have := congrArg List.length hkeys
        rw [hlenkeys, takeDistinct, List.length_take] at this
        omega
      have hdk : s.keys = dedupKeys acc := by
        rw [hkeys, takeDistinct, List.take_of_length_le (by omega)]
      show ((k, v) :: s.list).map (fun p => p.1) = _
      rw [List.map_cons]
      rw [LRUCache.keys] at hdk
      rw [hdk, hrhs, filterNe_of_not_mem (by rw [LRUCache.keys, hdk] at hk; exact hk),
        List.take_of_length_le hdlen]

theorem LRUCache.keys_get_takeDistinct [DecidableEq K] {s : LRUCache K V}
    {n : Nat} {acc : List K} (k : K)
    (hkeys : s.keys = takeDistinct (n + 1) acc) :
    ((s.get k).2).keys =
      takeDistinct (n + 1)
        (if k ∈ takeDistinct (n + 1) acc then k :: acc else acc) := by
  rw [LRUCache.get]
  cases hfind : lruFind s.list k with
  | none =>
    have hk : k ∉ s.keys := (lruFind_eq_none_iff s.list k).1 hfind
    rw [hkeys] at hk
    rw [if_neg hk]
    exact hkeys
  | some v0 =>
    have hk : k ∈ s.keys := lruFind_mem hfind
    rw [hkeys] at hk
    rw [if_pos hk]
    show (⟨s.capacity, (k, v0) :: lruErase s.list k⟩ : LRUCache K V).keys = _
    rw [takeDistinct] at hk
    rw [LRUCache.keys] at hkeys ⊢
    rw [List.map_cons, keys_lruErase, hkeys, takeDistinct,
      filterNe_take_of_mem (nodup_dedupKeys acc) hk, takeDistinct,
      dedupKeys_cons, List.take_succ_cons]

theorem LRUCache.keys_run_takeDistinct [DecidableEq K] {n : Nat}
    (ops : List (CacheOp K V)) :
    ∀ (s : LRUCache K V) (acc : List K), s.capacity = n + 1 →
      s.keys = takeDistinct (n + 1) acc →
      (s.run ops).keys = takeDistinct (n + 1) (touchLog (n + 1) ops acc) := by
  induction ops with
  | nil => intro s acc _ hkeys; exact hkeys
  | cons op ops ih =>
    intro s acc hcap hkeys
    cases op with
    | put k v =>
      exact ih (s.put k v) (k :: acc) (by rw [LRUCache.put_capacity, hcap])
        (LRUCache.keys_put_takeDistinct k v hcap hkeys)
    | get k =>
      exact ih ((s.get k).2) _ (by rw [LRUCache.get_capacity, hcap])
        (LRUCache.keys_get_takeDistinct k hkeys)

theorem lruFind_lruErase_of_ne [DecidableEq K] (l : List (K × V)) {k j : K}
    (h : j ≠ k) : lruFind (lruErase l k) j = lruFind l j := by
  induction l with
  | nil => rfl
  | cons p l ih =>
    by_cases hp : p.1 = k
    · rw [lruErase, if_pos hp, lruFind, if_neg (by rw [hp]; exact Ne.symm h), ih]
    · rw [lruErase, if_neg hp, lruFind, lruFind, ih]

theorem lruFind_put_self [DecidableEq K] (s : LRUCache K V) (k : K) (v : V)
    (hcap : 1 ≤ s.capacity) : lruFind (s.put k v).list k = some v := by
  rw [LRUCache.put, if_neg (by omega)]
  cases hfind : lruFind s.list k with
  | some v0 =>
    show lruFind ((k, v) :: lruErase s.list k) k = some v
    rw [lruFind, if_pos rfl]
  | none =>
    show lruFind (if s.capacity < ((k, v) :: s.list).length
        then ((k, v) :: s.list).dropLast else (k, v) :: s.list) k = some v
    by_cases hev : s.capacity < ((k, v) :: s.list).length
    · rw [if_pos hev]
      have hnil : s.list ≠ [] := by
        intro h
        rw [h] at hev
        simp at hev
        omega
      rw [List.dropLast_cons_of_ne_nil hnil, lruFind, if_pos rfl]
    · rw [if_neg hev, lruFind, if_pos rfl]

theorem LRUCache.get_fst [DecidableEq K] (s : LRUCache K V) (k : K) :
    (s.get k).1 = lruFind s.list k := by
  rw [LRUCache.get]
  cases lruFind s.list k <;> rfl

theorem lruFind_dropLast [DecidableEq K] (l : List (K × V)) (k : K) :
    lruFind l.dropLast k = lruFind l k ∨ lruFind l.dropLast k = none := by
  induction l with
  | nil => right; rfl
  | cons p l ih =>
    cases l with
    | nil => right; rfl
    | cons q l0 =>
      rw [List.dropLast_cons₂]
      by_cases hp : p.1 = k
      · left; rw [lruFind, if_pos hp, lruFind, if_pos hp]
      · rw [lruFind, if_neg hp, lruFind, if_neg hp]
        exact ih

theorem lruFind_put_of_ne [DecidableEq K] (s : LRUCache K V) {k j : K}
    (v : V) (hne : j ≠ k) :
    lruFind (s.put k v).list j = lruFind s.list j ∨
      lruFind (s.put k v).list j = none := by
  by_cases hc : s.capacity = 0
  · left; rw [LRUCache.put, if_pos hc]
  cases hfind : lruFind s.list k with
  | some v0 =>
    left
    simp only [LRUCache.put, if_neg hc, hfind]
    rw [lruFind, if_neg (fun h => hne (h.symm)), lruFind_lruErase_of_ne _ hne]
  | none =>
    simp only [LRUCache.put, if_neg hc, hfind]
    by_cases hev : s.capacity < ((k, v) :: s.list).length
    · rw [if_pos hev]
      rcases lruFind_dropLast ((k, v) :: s.list) j with h | h
      · left
        rw [h, lruFind, if_neg (fun hx => hne (hx.symm))]
      · right; exact h
    · left
      rw [if_neg hev, lruFind, if_neg (fun hx => hne (hx.symm))]

theorem lruFind_get_of_ne [DecidableEq K] (s : LRUCache K V) {k j : K}
    (hne : j ≠ k) : lruFind ((s.get k).2).list j = lruFind s.list j := by
  rw [LRUCache.get]
  cases hfind : lruFind s.list k with
  | none => rfl
  | some v0 =>
    show lruFind ((k, v0) :: lruErase s.list k) j = _
    rw [lruFind, if_neg (fun h => hne (h.symm)), lruFind_lruErase_of_ne _ hne]

theorem lruFind_lruErase_self [DecidableEq K] (l : List (K × V)) (k : K) :
    lruFind (lruErase l k) k = none := by
  induction l with
  | nil => rfl
  | cons p l ih =>
    by_cases hp : p.1 = k
    · rw [lruErase, if_pos hp, ih]
    · rw [lruErase, if_neg hp, lruFind, if_neg hp, ih]

theorem not_mem_keys_put [DecidableEq K] (s : LRUCache K V) {k j : K} (v : V)
    (hk : k ∉ s.keys) (hne : k ≠ j) : k ∉ (s.put j v).keys := by
  rw [LRUCache.keys] at hk ⊢
  rw [LRUCache.put]
  by_cases hc : s.capacity = 0
  · rw [if_pos hc]; exact hk
  rw [if_neg hc]
  cases hfind : lruFind s.list j with
  | some v0 =>
    show k ∉ ((j, v) :: lruErase s.list j).map (fun p => p.1)
    rw [List.map_cons, keys_lruErase]
    intro hmem
    rcases List.mem_cons.1 hmem with h | h
    · exact hne h
    · exact hk ((mem_filterNe _ _ _).1 h).1
  | none =>
    show k ∉ ((if s.capacity < ((j, v) :: s.list).length
        then ((j, v) :: s.list).dropLast else (j, v) :: s.list) :
          List (K × V)).map (fun p => p.1)
    intro hmem
    by_cases hev : s.capacity < ((j, v) :: s.list).length
    · rw [if_pos hev, List.map_dropLast] at hmem
      have hmem2 := List.dropLast_subset _ hmem
      rw [List.map_cons] at hmem2
      rcases List.mem_cons.1 hmem2 with h | h
      · exact hne h
      · exact hk h
    · rw [if_neg hev, List.map_cons] at hmem
      rcases List.mem_cons.1 hmem with h | h
      · exact hne h
      · exact hk h

theorem not_mem_keys_get [DecidableEq K] (s : LRUCache K V) {k : K} (j : K)
    (hk : k ∉ s.keys) : k ∉ ((s.get j).2).keys := by
  rw [LRUCache.keys] at hk ⊢
  rw [LRUCache.get]
  cases hfind : lruFind s.list j with
  | none => exact hk
  | some v0 =>
    show k ∉ ((j, v0) :: lruErase s.list j).map (fun p => p.1)
    rw [List.map_cons, keys_lruErase]
    intro hmem
    rcases List.mem_cons.1 hmem with h | h
    · subst h
      exact hk (lruFind_mem hfind)
    · exact hk ((mem_filterNe _ _ _).1 h).1

theorem lruFind_eq_none_of_not_mem [DecidableEq K] {l : List (K × V)} {k : K}
    (h : k ∉ l.map (fun p => p.1)) : lruFind l k = none :=
  (lruFind_eq_none_iff l k).2 h

theorem LRUCache.put_length_le [DecidableEq K] (s : LRUCache K V) (k : K)
    (v : V) (h : s.list.length ≤ s.capacity) :
    (s.put k v).list.length ≤ s.capacity := by
  by_cases hc : s.capacity = 0
  · rw [LRUCache.put, if_pos hc]; exact h
  cases hfind : lruFind s.list k with
  | some v0 =>
    simp only [LRUCache.put, if_neg hc, hfind, List.length_cons]
    have := length_lruErase_lt hfind
    omega
  | none =>
    simp only [LRUCache.put, if_neg hc, hfind]
    by_cases hev : s.capacity < ((k, v) :: s.list).length
    · rw [if_pos hev, List.length_dropLast, List.length_cons]
      omega
    · rw [if_neg hev]
      rw [List.length_cons] at hev ⊢
      omega

theorem LRUCache.get_length_le [DecidableEq K] (s : LRUCache K V) (k : K) :
    ((s.get k).2).list.length ≤ s.list.length := by
  rw [LRUCache.get]
  cases hfind : lruFind s.list k with
  | none => exact Nat.le_refl _
  | some v0 =>
    show ((k, v0) :: lruErase s.list k).length ≤ s.list.length
    rw [List.length_cons]
    have := length_lruErase_lt hfind
    omega

theorem lruGet_fst_after_put [DecidableEq K] (s : LRUCache K V) (k : K)
    (v : V) (h : 1 ≤ s.capacity) : ((s.put k v).get k).1 = some v := by
  rw [LRUCache.get_fst, lruFind_put_self s k v h]

/-- Claim C1: for every sequence of `put`/`get` operations on an `LRUCache`
constructed with capacity `C >= 1`, the resident keys after the sequence are
exactly the `C` most recently touched distinct keys, in recency order (all
touched distinct keys when fewer than `C`).  Recency is the total order of
the calls; a `put` touches its key and a `get` touches its key exactly when
it hits. -/
theorem C1_lru_resident_is_take_distinct [DecidableEq K] (C : Nat)
    (ops : List (CacheOp K V)) (hC : 1 ≤ C) :
    (LRUCache.run (LRUCache.init C) ops).keys =
      takeDistinct C (touchLog C ops []) := by
  obtain ⟨n, rfl⟩ : ∃ n, C = n + 1 := ⟨C - 1, by omega⟩
  exact LRUCache.keys_run_takeDistinct ops (LRUCache.init (n + 1)) [] rfl rfl

/-- Witness for C1 at a concrete input: capacity 2,
`put 1; put 2; get 1; put 3` leaves keys `[3, 1]` (key 2 evicted), matching
the first two distinct keys of the touch log. -/
theorem C1_witness :
    (LRUCache.run (LRUCache.init 2)
        [CacheOp.put 1 10, CacheOp.put 2 20, CacheOp.get 1,
          CacheOp.put (3 : Nat) (30 : Nat)]).keys =
      takeDistinct 2 (touchLog 2
        [CacheOp.put 1 10, CacheOp.put 2 20, CacheOp.get 1,
          CacheOp.put (3 : Nat) (30 : Nat)] []) ∧
    (LRUCache.run (LRUCache.init 2)
        [CacheOp.put 1 10, CacheOp.put 2 20, CacheOp.get 1,
          CacheOp.put (3 : Nat) (30 : Nat)]).keys = [3, 1] :=
  ⟨C1_lru_resident_is_take_distinct 2 _ (by decide), by decide⟩

/-! ### Lemmas about `HashLRUCaches` -/

theorem HashLRUCaches.step_inv [DecidableEq K] (h : K → Nat) {N b : Nat}
    (s : HashLRUCaches K V) (op : CacheOp K V) (hN : 1 ≤ N)
    (hslice : s.sliceNum_ = N) (hlen : s.lruCaches_.length = N)
    (hall : ∀ c ∈ s.lruCaches_, c.capacity = b ∧ c.list.length ≤ b) :
    (s.step h op).sliceNum_ = N ∧ (s.step h op).lruCaches_.length = N ∧
      ∀ c ∈ (s.step h op).lruCaches_,
        c.capacity = b ∧ c.list.length ≤ b := by
  have hmem : ∀ (j : K), s.lruCaches_.getD (h j % s.sliceNum_) ⟨0, []⟩ ∈
      s.lruCaches_ := by
    intro j
    have hi : h j % s.sliceNum_ < s.lruCaches_.length := by
      rw [hlen, hslice]
      exact Nat.mod_lt _ (by omega)
    rw [List.getD_eq_getElem _ _ hi]
    exact List.getElem_mem hi
  cases op with
  | put k v =>
    refine ⟨hslice, ?_, ?_⟩
    · show (s.lruCaches_.set _ _).length = N
      rw [List.length_set, hlen]
    · intro c hc
      rcases List.mem_or_eq_of_mem_set hc with hcm | rfl
      · exact hall c hcm
      · rcases hall _ (hmem k) with ⟨hcap, hle⟩
        refine ⟨by rw [LRUCache.put_capacity, hcap], ?_⟩
        rw [← hcap]
        exact LRUCache.put_length_le _ k v (by rw [hcap]; exact hle)
  | get k =>
    refine ⟨hslice, ?_, ?_⟩
    · show (s.lruCaches_.set _ _).length = N
      rw [List.length_set, hlen]
    · intro c hc
      rcases List.mem_or_eq_of_mem_set hc with hcm | rfl
      · exact hall c hcm
      · rcases hall _ (hmem k) with ⟨hcap, hle⟩
        refine ⟨by rw [LRUCache.get_capacity, hcap], ?_⟩
        calc ((s.lruCaches_.getD _ ⟨0, []⟩).get k).2.list.length
            ≤ (s.lruCaches_.getD _ ⟨0, []⟩).list.length :=
              LRUCache.get_length_le _ k
          _ ≤ b := hle

theorem HashLRUCaches.run_inv [DecidableEq K] (h : K → Nat) {N b : Nat}
    (ops : List (CacheOp K V)) (hN : 1 ≤ N) :
    ∀ s : HashLRUCaches K V, s.sliceNum_ = N → s.lruCaches_.length = N →
      (∀ c ∈ s.lruCaches_, c.capacity = b ∧ c.list.length ≤ b) →
      (HashLRUCaches.run h s ops).lruCaches_.length = N ∧
        ∀ c ∈ (HashLRUCaches.run h s ops).lruCaches_,
          c.capacity = b ∧ c.list.length ≤ b := by
  induction ops with
  | nil => intro s _ hlen hall; exact ⟨hlen, hall⟩
  | cons op ops ih =>
    intro s hslice hlen hall
    rcases HashLRUCaches.step_inv h s op hN hslice hlen hall with
      ⟨h1, h2, h3⟩
    exact ih (s.step h op) h1 h2 h3

/-- Claim C8: a `HashLRUCaches` built with total capacity `C` and
`sliceNum = N >= 1` consists of `N` independent `LRUCache` shards, each of
capacity `ceil(C/N)`; for every operation sequence every shard stays within
that capacity, and the total number of resident entries over all shards
never exceeds `N * ceil(C/N)`. -/
theorem C8_sharded_bounds [DecidableEq K] (h : K → Nat) (C N : Nat)
    (ops : List (CacheOp K V)) (hN : 1 ≤ N) :
    (∀ c ∈ (HashLRUCaches.run h (HashLRUCaches.init C N) ops).lruCaches_,
        c.capacity = ceilDiv C N ∧ c.list.length ≤ ceilDiv C N) ∧
      (HashLRUCaches.run h (HashLRUCaches.init C N) ops).totalResident ≤
        N * ceilDiv C N := by
  have hinit : ∀ c ∈ (HashLRUCaches.init C N : HashLRUCaches K V).lruCaches_,
      c.capacity = ceilDiv C N ∧ c.list.length ≤ ceilDiv C N := by
    intro c hc
    rw [HashLRUCaches.init] at hc
    have := List.eq_of_mem_replicate hc
    rw [this]
    exact ⟨rfl, by simp⟩
  rcases HashLRUCaches.run_inv h ops hN (HashLRUCaches.init C N) rfl
      (by rw [HashLRUCaches.init]; exact List.length_replicate ..) hinit with
    ⟨hlen, hall⟩
  refine ⟨hall, ?_⟩
  rw [HashLRUCaches.totalResident]
  calc ((HashLRUCaches.run h (HashLRUCaches.init C N) ops).lruCaches_.map
        (fun c => c.list.length)).sum
      ≤ ((HashLRUCaches.run h (HashLRUCaches.init C N) ops).lruCaches_.map
        (fun c => c.list.length)).length * ceilDiv C N := by
        have := List.sum_le_card_nsmul
          ((HashLRUCaches.run h (HashLRUCaches.init C N) ops).lruCaches_.map
            (fun c => c.list.length)) (ceilDiv C N) (by
              intro x hx
              rcases List.mem_map.1 hx with ⟨c, hc, rfl⟩
              exact (hall c hc).2)
        simpa using this
    _ = N * ceilDiv C N := by rw [List.length_map, hlen]

/-- Witness for C8 at a concrete input: capacity 3 over 2 shards (shard
capacity 2), five puts; every shard is within capacity 2 and the total
resident count 4 is at most `2 * 2`. -/
theorem C8_witness :
    (∀ c ∈ (HashLRUCaches.run (fun k => k)
        (HashLRUCaches.init 3 2 : HashLRUCaches Nat Nat)
        [CacheOp.put 1 10, CacheOp.put 2 20, CacheOp.put 3 30,
          CacheOp.put 4 40, CacheOp.put 5 50]).lruCaches_,
      c.capacity = ceilDiv 3 2 ∧ c.list.length ≤ ceilDiv 3 2) ∧
    (HashLRUCaches.run (fun k => k)
        (HashLRUCaches.init 3 2 : HashLRUCaches Nat Nat)
        [CacheOp.put 1 10, CacheOp.put 2 20, CacheOp.put 3 30,
          CacheOp.put 4 40, CacheOp.put 5 50]).totalResident ≤
      2 * ceilDiv 3 2 :=
  C8_sharded_bounds (fun k => k) 3 2 _ (by decide)

/-! ### Lemmas about `LRUKCache` -/

theorem LRUCache.getValue_fst [DecidableEq K] (s : LRUCache K V) (k : K)
    (dflt : V) : (s.getValue k dflt).1 = (lruFind s.list k).getD dflt := by
  rw [LRUCache.getValue, LRUCache.get_fst]

theorem LRUCache.getValue_snd [DecidableEq K] (s : LRUCache K V) (k : K)
    (dflt : V) : (s.getValue k dflt).2 = (s.get k).2 := rfl

theorem lruFind_put_self_cases [DecidableEq K] (s : LRUCache K V) (k : K)
    (v : V) :
    lruFind (s.put k v).list k = some v ∨
      lruFind (s.put k v).list k = lruFind s.list k := by
  by_cases hc : s.capacity = 0
  · right; rw [LRUCache.put, if_pos hc]
  · left; exact lruFind_put_self s k v (by omega)

theorem LRUKCache.put_k_eq [DecidableEq K] [DecidableEq V]
    (s : LRUKCache K V) (key : K) (value emptyV : V) :
    (s.put key value emptyV).k_ = s.k_ := by
  rw [LRUKCache.put]
  split <;> rfl

theorem LRUKCache.get_k_eq [DecidableEq K] (s : LRUKCache K V) (key : K) :
    ((s.get key).2).k_ = s.k_ := rfl

theorem histCount_after_touch [DecidableEq K] (hist : LRUCache K Nat)
    (k : K) :
    (lruFind (((hist.getValue k 0).2).put k
        ((hist.getValue k 0).1 + 1)).list k).getD 0 ≤
      (lruFind hist.list k).getD 0 + 1 := by
  have hfh : lruFind ((hist.getValue k 0).2).list k =
      lruFind hist.list k := by
    rw [LRUCache.getValue_snd, LRUCache.get]
    cases hfind : lruFind hist.list k with
    | none => exact hfind
    | some c =>
      show lruFind ((k, c) :: lruErase hist.list k) k = some c
      rw [lruFind, if_pos rfl]
  rcases lruFind_put_self_cases ((hist.getValue k 0).2) k
      ((hist.getValue k 0).1 + 1) with hc | hc
  · rw [hc, LRUCache.getValue_fst]
    simp
  · rw [hc, hfh]
    omega

theorem histCount_after_other_touch [DecidableEq K] (hist : LRUCache K Nat)
    {k j : K} (hkj : k ≠ j) :
    (lruFind (((hist.getValue j 0).2).put j
        ((hist.getValue j 0).1 + 1)).list k).getD 0 ≤
      (lruFind hist.list k).getD 0 := by
  have hfh : lruFind ((hist.getValue j 0).2).list k =
      lruFind hist.list k := by
    rw [LRUCache.getValue_snd]
    exact lruFind_get_of_ne hist hkj
  rcases lruFind_put_of_ne ((hist.getValue j 0).2)
      ((hist.getValue j 0).1 + 1) hkj with hc | hc
  · rw [hc, hfh]
  · rw [hc]
    exact Nat.zero_le _

theorem LRUKCache.run_below_threshold [DecidableEq K] [DecidableEq V]
    (emptyV : V) (k : K) (ops : List (CacheOp K V)) :
    ∀ s : LRUKCache K V, k ∉ s.primary.keys →
      (lruFind s.historyList_.list k).getD 0 + touchCount k ops < s.k_ →
      k ∉ (LRUKCache.run emptyV s ops).primary.keys := by
  induction ops with
  | nil => intro s hk _; exact hk
  | cons op ops ih =>
    intro s hk hcnt
    cases op with
    | put j v =>
      show k ∉ (LRUKCache.run emptyV (s.put j v emptyV) ops).primary.keys
      rw [touchCount] at hcnt
      by_cases hjk : j = k
      · subst hjk
        rw [if_pos rfl] at hcnt
        have hpfind : lruFind s.primary.list j = none :=
          lruFind_eq_none_of_not_mem (by rw [LRUCache.keys] at hk; exact hk)
        have hpv : (s.primary.getValue j emptyV).1 = emptyV := by
          rw [LRUCache.getValue_fst, hpfind]
          rfl
        have hnp : ¬ (s.k_ ≤ (s.historyList_.getValue j 0).1 + 1) := by
          rw [LRUCache.getValue_fst]
          omega
        have hput : s.put j v emptyV =
            ⟨s.k_, (s.primary.getValue j emptyV).2,
              ((s.historyList_.getValue j 0).2.put j
                ((s.historyList_.getValue j 0).1 + 1))⟩ := by
          rw [LRUKCache.put, if_neg hnp, if_neg (by simp [hpv])]
        rw [hput]
        refine ih _ ?_ ?_
        · rw [LRUCache.getValue_snd]
          exact not_mem_keys_get s.primary j hk
        · show (lruFind (((s.historyList_.getValue j 0).2).put j
              ((s.historyList_.getValue j 0).1 + 1)).list j).getD 0 +
              touchCount j ops < s.k_
          have := histCount_after_touch s.historyList_ j
          omega
      · have hkj : k ≠ j := fun h => hjk h.symm
        rw [if_neg hjk, Nat.zero_add] at hcnt
        have h0 : k ∉ ((s.primary.getValue j emptyV).2).keys := by
          rw [LRUCache.getValue_snd]
          exact not_mem_keys_get s.primary j hk
        have hknotp1 : k ∉ (if (s.primary.getValue j emptyV).1 ≠ emptyV then
              ((s.primary.getValue j emptyV).2.put j v)
            else (s.primary.getValue j emptyV).2).keys := by
          split
          · exact not_mem_keys_put _ v h0 hkj
          · exact h0
        have hhist := histCount_after_other_touch s.historyList_
          (j := j) hkj
        simp only [LRUKCache.put]
        split
        · refine ih _ ?_ ?_
          · exact not_mem_keys_put _ v hknotp1 hkj
          · show (lruFind (lruErase (((s.historyList_.getValue j 0).2.put j
                ((s.historyList_.getValue j 0).1 + 1)).list) j) k).getD 0 +
                touchCount k ops < s.k_
            rw [lruFind_lruErase_of_ne _ hkj]
            omega
        · refine ih _ ?_ ?_
          · exact hknotp1
          · show (lruFind (((s.historyList_.getValue j 0).2.put j
                ((s.historyList_.getValue j 0).1 + 1)).list) k).getD 0 +
                touchCount k ops < s.k_
            omega
    | get j =>
      show k ∉ (LRUKCache.run emptyV ((s.get j).2) ops).primary.keys
      rw [touchCount] at hcnt
      refine ih _ ?_ ?_
      · show k ∉ ((s.primary.get j).2).keys
        exact not_mem_keys_get s.primary j hk
      · show (lruFind (((s.historyList_.getValue j 0).2).put j
            ((s.historyList_.getValue j 0).1 + 1)).list k).getD 0 +
            touchCount k ops < s.k_
        by_cases hjk : j = k
        · subst hjk
          rw [if_pos rfl] at hcnt
          have := histCount_after_touch s.historyList_ j
          omega
        · rw [if_neg hjk, Nat.zero_add] at hcnt
          have := histCount_after_other_touch s.historyList_
            (j := j) (fun h => hjk h.symm)
          omega

theorem LRUKCache.put_promotes_get [DecidableEq K] [DecidableEq V]
    (s : LRUKCache K V) (k : K) (v emptyV : V)
    (hcap : 1 ≤ s.primary.capacity)
    (hK : s.k_ ≤ (lruFind s.historyList_.list k).getD 0 + 1) :
    ((s.put k v emptyV).get k).1 = some v := by
  have hKle : s.k_ ≤ (s.historyList_.getValue k 0).1 + 1 := by
    rw [LRUCache.getValue_fst]
    exact hK
  have hput : s.put k v emptyV = ⟨s.k_,
      (if (s.primary.getValue k emptyV).1 ≠ emptyV then
          ((s.primary.getValue k emptyV).2.put k v)
        else (s.primary.getValue k emptyV).2).put k v,
      ((s.historyList_.getValue k 0).2.put k
        ((s.historyList_.getValue k 0).1 + 1)).remove k⟩ := by
    rw [LRUKCache.put, if_pos hKle]
  rw [hput]
  show (((if (s.primary.getValue k emptyV).1 ≠ emptyV then
        ((s.primary.getValue k emptyV).2.put k v)
      else (s.primary.getValue k emptyV).2).put k v).get k).1 = some v
  refine lruGet_fst_after_put _ k v ?_
  split
  · rw [LRUCache.put_capacity, LRUCache.getValue_snd, LRUCache.get_capacity]
    exact hcap
  · rw [LRUCache.getValue_snd, LRUCache.get_capacity]
    exact hcap

theorem lruFind_histSingle [DecidableEq K] (hc : Nat) (k : K) (c : Nat) :
    (lruFind (histSingle hc k c).list k).getD 0 = c := by
  by_cases h : c = 0 <;> simp [histSingle, h, lruFind]

theorem LRUKCache.run_append [DecidableEq K] [DecidableEq V] (emptyV : V)
    (l1 l2 : List (CacheOp K V)) :
    ∀ s : LRUKCache K V, LRUKCache.run emptyV s (l1 ++ l2) =
      LRUKCache.run emptyV (LRUKCache.run emptyV s l1) l2 := by
  induction l1 with
  | nil => intro s; rfl
  | cons op l1 ih =>
    intro s
    show LRUKCache.run emptyV (LRUKCache.step emptyV s op) (l1 ++ l2) = _
    rw [ih]
    rfl

theorem LRUKCache.put_step_below [DecidableEq K] [DecidableEq V]
    (emptyV : V) (k : K) {kThr hc : Nat} (hhc : 1 ≤ hc)
    {prim : LRUCache K V} (hprim : k ∉ prim.keys) (v : V) (c : Nat)
    (hlt : c + 1 < kThr) :
    LRUKCache.put ⟨kThr, prim, histSingle hc k c⟩ k v emptyV =
      ⟨kThr, prim, histSingle hc k (c + 1)⟩ := by
  have hpf : lruFind prim.list k = none :=
    lruFind_eq_none_of_not_mem (by rw [LRUCache.keys] at hprim; exact hprim)
  have hnp : ¬ (kThr ≤ c + 1) := by omega
  have e1 : prim.getValue k emptyV = (emptyV, prim) := by
    simp [LRUCache.getValue, LRUCache.get, hpf]
  have e2 : (histSingle hc k c).getValue k 0 = (c, histSingle hc k c) := by
    by_cases h0 : c = 0
    · subst h0
      simp [histSingle, LRUCache.getValue, LRUCache.get, lruFind]
    · simp [histSingle, h0, LRUCache.getValue, LRUCache.get, lruFind,
        lruErase]
  have e3 : LRUCache.put (histSingle hc k c) k (c + 1) =
      histSingle hc k (c + 1) := by
    by_cases h0 : c = 0
    · subst h0
      simp [histSingle, LRUCache.put, lruFind,
        show ¬ hc = 0 by omega, show ¬ hc < 1 by omega]
    · simp [histSingle, h0, LRUCache.put, lruFind, lruErase,
        show ¬ hc = 0 by omega]
  rw [LRUKCache.put]
  simp only [e1, e2]
  rw [if_neg hnp, if_neg (by simp)]
  show (⟨kThr, prim, LRUCache.put (histSingle hc k c) k (c + 1)⟩ :
      LRUKCache K V) = _
  rw [e3]

theorem LRUKCache.run_puts_below [DecidableEq K] [DecidableEq V]
    (emptyV : V) (k : K) {kThr hc : Nat} (hhc : 1 ≤ hc)
    (prim : LRUCache K V) (hprim : k ∉ prim.keys) :
    ∀ (vs : List V) (c : Nat), c + vs.length < kThr →
      LRUKCache.run emptyV ⟨kThr, prim, histSingle hc k c⟩
          (vs.map (fun v => CacheOp.put k v)) =
        ⟨kThr, prim, histSingle hc k (c + vs.length)⟩ := by
  intro vs
  induction vs with
  | nil => intro c h; rfl
  | cons v vs ih =>
    intro c hlen
    rw [List.length_cons] at hlen
    show LRUKCache.run emptyV
        (LRUKCache.put ⟨kThr, prim, histSingle hc k c⟩ k v emptyV)
        (vs.map (fun v => CacheOp.put k v)) = _
    rw [LRUKCache.put_step_below emptyV k hhc hprim v c (by omega),
      List.length_cons, show c + (vs.length + 1) = (c + 1) + vs.length by omega]
    exact ih (c + 1) (by omega)

/-- Counterexample to C6 as stated: `LRUKCache` with promotion threshold
`K = 3`; key 1 is the argument of only two `put` calls (`put 1 10`, then
`put 1 20`, with a `get 1` between them), yet the very next `get 1` hits and
returns 20, because `put` promotes on the history count, which the
interleaved `get` also incremented. -/
theorem C6_cex :
    ((LRUKCache.run (0 : Nat)
        (LRUKCache.init 10 10 3 : LRUKCache Nat Nat)
        [CacheOp.put 1 10, CacheOp.get 1, CacheOp.put 1 20]).get 1).1 =
      some 20 := by decide

/-- Claim C6 (amended): in `LRUKCache` the promotion count is the number of
touches (`put` and `get` calls) of the key, not of `put` calls alone.
(a) A key touched fewer than `K` times in total is never returned by a
`get`: after any such operation sequence from a fresh cache the next `get`
of the key misses.  (b) A `put` of the key at which the history count
reaches the threshold `K` promotes it with the value of that `put`: the very
next `get` returns exactly that value (there was no intervening history
eviction, expressed by reading the count from the current state). -/
theorem C6_promotion_amended [DecidableEq K] [DecidableEq V] :
    (∀ (kThr hc pc : Nat) (emptyV : V) (k : K) (ops : List (CacheOp K V)),
        touchCount k ops < kThr →
        ((LRUKCache.run emptyV (LRUKCache.init pc hc kThr) ops).get k).1 =
          none) ∧
    (∀ (s : LRUKCache K V) (k : K) (v emptyV : V),
        1 ≤ s.primary.capacity →
        s.k_ ≤ (lruFind s.historyList_.list k).getD 0 + 1 →
        ((s.put k v emptyV).get k).1 = some v) := by
  constructor
  · intro kThr hc pc emptyV k ops hlt
    have hrun := LRUKCache.run_below_threshold emptyV k ops
      (LRUKCache.init pc hc kThr)
      (by simp [LRUKCache.init, LRUCache.keys])
      (by
        show (lruFind ([] : List (K × Nat)) k).getD 0 + touchCount k ops <
          kThr
        simp only [lruFind, Option.getD_none, Nat.zero_add]
        exact hlt)
    show ((LRUKCache.run emptyV (LRUKCache.init pc hc kThr)
        ops).primary.get k).1 = none
    rw [LRUCache.get_fst]
    exact lruFind_eq_none_of_not_mem
      (by rw [LRUCache.keys] at hrun; exact hrun)
  · intro s k v emptyV hcap hK
    exact LRUKCache.put_promotes_get s k v emptyV hcap hK

/-- Witness for the amended C6: (a) after a single `put 1` with threshold 2
the next `get 1` misses; (b) from a state whose history already counts one
touch of key 1 and threshold 2, `put 1 20` promotes and the next `get 1`
returns 20. -/
theorem C6_witness :
    ((LRUKCache.run (0 : Nat)
        (LRUKCache.init 5 5 2 : LRUKCache Nat Nat)
        [CacheOp.put 1 10]).get 1).1 = none ∧
    ((LRUKCache.put (⟨2, ⟨5, []⟩, ⟨5, [(1, 1)]⟩⟩ : LRUKCache Nat Nat)
        1 20 0).get 1).1 = some 20 :=
  ⟨C6_promotion_amended.1 2 5 5 0 1 [CacheOp.put 1 10] (by decide),
    C6_promotion_amended.2 ⟨2, ⟨5, []⟩, ⟨5, [(1, 1)]⟩⟩ 1 20 0 (by decide)
      (by decide)⟩

/-- Claim C10: while a key is below the promotion threshold, the values of
its `put` calls are discarded: after `j < K` puts of key `k` from a fresh
`LRUKCache` the whole state is the untouched primary plus a bare access
count `j` for `k` (no value of any sub-threshold put is stored anywhere, as
the history maps keys to counts only); and when the `(j+1)`-st put promotes
`k` (threshold `j+1`), the value inserted into the primary is that
promoting put's value `w`: the next `get` returns `w`, and no earlier value
is retrievable. -/
theorem C10_history_discards_values [DecidableEq K] [DecidableEq V] :
    (∀ (kThr hc pc : Nat) (emptyV : V) (k : K) (vs : List V),
        1 ≤ hc → vs.length < kThr →
        LRUKCache.run emptyV (LRUKCache.init pc hc kThr)
            (vs.map (fun v => CacheOp.put k v)) =
          ⟨kThr, ⟨pc, []⟩, histSingle hc k vs.length⟩) ∧
    (∀ (hc pc : Nat) (emptyV : V) (k : K) (vs : List V) (w : V),
        1 ≤ hc → 1 ≤ pc →
        ((LRUKCache.run emptyV (LRUKCache.init pc hc (vs.length + 1))
            ((vs ++ [w]).map (fun v => CacheOp.put k v))).get k).1 =
          some w) := by
  have hbase : ∀ (kThr hc pc : Nat) (emptyV : V) (k : K) (vs : List V),
      1 ≤ hc → vs.length < kThr →
      LRUKCache.run emptyV (LRUKCache.init pc hc kThr)
          (vs.map (fun v => CacheOp.put k v)) =
        ⟨kThr, ⟨pc, []⟩, histSingle hc k vs.length⟩ := by
    intro kThr hc pc emptyV k vs hhc hlt
    have h0 : (LRUKCache.init pc hc kThr : LRUKCache K V) =
        ⟨kThr, ⟨pc, []⟩, histSingle hc k 0⟩ := by
      rw [LRUKCache.init, histSingle, if_pos rfl]
    rw [h0]
    have := LRUKCache.run_puts_below emptyV k hhc ⟨pc, []⟩
      (by simp [LRUCache.keys]) vs 0 (show 0 + vs.length < kThr by omega)
    rw [this, Nat.zero_add]
  constructor
  · exact hbase
  · intro hc pc emptyV k vs w hhc hpc
    rw [List.map_append, LRUKCache.run_append,
      hbase (vs.length + 1) hc pc emptyV k vs hhc (by omega)]
    show ((LRUKCache.put ⟨vs.length + 1, ⟨pc, []⟩,
        histSingle hc k vs.length⟩ k w emptyV).get k).1 = some w
    refine LRUKCache.put_promotes_get _ k w emptyV hpc ?_
    show vs.length + 1 ≤
      (lruFind (histSingle hc k vs.length).list k).getD 0 + 1
    rw [lruFind_histSingle]

/-- Witness for C10: two sub-threshold puts of key 1 (threshold 3) leave
only the count 2 and a `get` misses; with threshold 2, `put 1 10` then
`put 1 20` promotes with 20 and the next `get 1` returns 20, not 10. -/
theorem C10_witness :
    (LRUKCache.run (0 : Nat) (LRUKCache.init 6 6 3 : LRUKCache Nat Nat)
        ([10, 20].map (fun v => CacheOp.put 1 v)) =
      ⟨3, ⟨6, []⟩, histSingle 6 1 2⟩) ∧
    ((LRUKCache.run (0 : Nat) (LRUKCache.init 6 6 2 : LRUKCache Nat Nat)
        (([10] ++ [20]).map (fun v => CacheOp.put 1 v))).get 1).1 =
      some 20 :=
  ⟨C10_history_discards_values.1 3 6 6 0 1 [10, 20] (by decide) (by decide),
    C10_history_discards_values.2 6 6 0 1 [10] 20 (by decide) (by decide)⟩

/-- Claim C3 (code bug): `LFUCache::put` has no capacity guard (unlike
`LRUCache::put` and `LFUCache::get`), so on a capacity-0 cache the very
first `put` takes the eviction branch (`size() == capacity_` holds with
both 0), looks up `freqNodeMap_[minFreq_]` in the empty bucket map —
`operator[]` inserts a null `shared_ptr` — and dereferences it: a fault,
not the no-op the spec promises.  This holds for every value of the
uninitialised `minFreq_`. -/
theorem C3_lfu_put_capacity_zero_faults :
    ∀ m0 : Nat, (LFUCache.init 0 m0 : LFUCache Nat Nat).put 1 10 = none := by
  intro m0
  rfl

/-- Claim C4 (code bug): `LFUCachePro::decreaseFreqNum` divides by
`keyNodeMap_.size()` with no emptiness guard.  With capacity 1, the second
`put` evicts the only entry and then divides by zero: `put 1; put 2` on
`LFUCachePro(1)` faults.  (The uninitialised `minFreq_`, here 0, is
overwritten to 1 by the first `put` before it is ever read, so its initial
value is irrelevant to this run.) -/
theorem C4_pro_capacity_one_div_by_zero :
    (LFUCachePro.init 1 20 0 : LFUCachePro Nat Nat).run
      [CacheOp.put 1 10, CacheOp.put 2 20] = none := by decide

/-- Claim C5 (code bug): in `LFUCachePro::handleFreqOverflow` the unsigned
subtraction `accessCount -= maxAverageNum_/2` wraps around instead of
clamping at 1.  With capacity 2 and `maxAverageNum = 4`: after `put 1`,
`put 2` and seven `get 1` the frequencies are 8 and 1; the eighth `get 1`
raises key 1 to 9, pushes the average to 5 > 4 and rebalances: key 1 drops
to 7, but key 2's `1 - 2` wraps to `2^64 - 1`, so the pre-pass order
`freq 1 = 9 > freq 2 = 1` is inverted to `7 < 2^64 - 1` — the relative
order among resident entries is not preserved as the claim states. -/
theorem C5_pro_rebalance_underflow :
    ((LFUCachePro.init 2 4 0 : LFUCachePro Nat Nat).run
        ([CacheOp.put 1 10, CacheOp.put 2 20] ++
          List.replicate 7 (CacheOp.get 1))).map
        (fun s => ((findEntry s.keyNodeMap_ 1).map (fun e => e.2),
          (findEntry s.keyNodeMap_ 2).map (fun e => e.2))) =
      some (some 8, some 1) ∧
    ((LFUCachePro.init 2 4 0 : LFUCachePro Nat Nat).run
        ([CacheOp.put 1 10, CacheOp.put 2 20] ++
          List.replicate 8 (CacheOp.get 1))).map
        (fun s => ((findEntry s.keyNodeMap_ 1).map (fun e => e.2),
          (findEntry s.keyNodeMap_ 2).map (fun e => e.2))) =
      some (some 7, some (U64 - 1)) ∧
    7 < U64 - 1 :=
  ⟨by decide, by decide, by decide⟩

/-! ### Lemmas about the `LFUCache` primitives -/

theorem findEntry_eq_none_iff [DecidableEq K] (km : List (K × V × Nat))
    (k : K) : findEntry km k = none ↔ ∀ e ∈ km, e.1 ≠ k := by
  induction km with
  | nil => simp [findEntry]
  | cons e es ih =>
    by_cases h : e.1 = k <;> simp [findEntry, h, ih]

theorem findEntry_some_mem [DecidableEq K] {km : List (K × V × Nat)} {k : K}
    {v : V} {f : Nat} (h : findEntry km k = some (v, f)) :
    (k, v, f) ∈ km := by
  induction km with
  | nil => exact absurd h (by simp [findEntry])
  | cons e es ih =>
    by_cases he : e.1 = k
    · rw [findEntry, if_pos he] at h
      have : e = (k, v, f) := by
        obtain ⟨e1, e2, e3⟩ := e
        obtain ⟨rfl⟩ := Option.some.inj h
        simp only at he
        rw [he]
      rw [← this]
      exact List.mem_cons_self e es
    · rw [findEntry, if_neg he] at h
      exact List.mem_cons_of_mem e (ih h)

theorem findEntry_some_of_mem [DecidableEq K] {km : List (K × V × Nat)}
    {k : K} {v : V} {f : Nat} (hnd : (km.map (fun e => e.1)).Nodup)
    (h : (k, v, f) ∈ km) : findEntry km k = some (v, f) := by
  induction km with
  | nil => simp at h
  | cons e es ih =>
    rw [List.map_cons, List.nodup_cons] at hnd
    rcases List.mem_cons.1 h with rfl | hmem
    · rw [findEntry, if_pos rfl]
    · by_cases he : e.1 = k
      · exfalso
        apply hnd.1
        rw [he]
        exact List.mem_map.2 ⟨(k, v, f), hmem, rfl⟩
      · rw [findEntry, if_neg he]
        exact ih hnd.2 hmem

theorem entry_unique [DecidableEq K] {km : List (K × V × Nat)} {k : K}
    {a b : V × Nat} (hnd : (km.map (fun e => e.1)).Nodup)
    (h1 : (k, a) ∈ km) (h2 : (k, b) ∈ km) : a = b := by
  have e1 := findEntry_some_of_mem hnd (v := a.1) (f := a.2) (by
    obtain ⟨a1, a2⟩ := a
    exact h1)
  have e2 := findEntry_some_of_mem hnd (v := b.1) (f := b.2) (by
    obtain ⟨b1, b2⟩ := b
    exact h2)
  rw [e1] at e2
  exact Option.some.inj e2

theorem mem_eraseEntry [DecidableEq K] (km : List (K × V × Nat)) (k : K)
    (e : K × V × Nat) : e ∈ eraseEntry km k ↔ e ∈ km ∧ e.1 ≠ k := by
  induction km with
  | nil => simp [eraseEntry]
  | cons e0 es ih =>
    by_cases h : e0.1 = k
    · rw [eraseEntry, if_pos h, ih]
      constructor
      · rintro ⟨hm, hne⟩
        exact ⟨List.mem_cons_of_mem _ hm, hne⟩
      · rintro ⟨hm, hne⟩
        rcases List.mem_cons.1 hm with rfl | hm
        · exact absurd h hne
        · exact ⟨hm, hne⟩
    · rw [eraseEntry, if_neg h]
      constructor
      · intro hm
        rcases List.mem_cons.1 hm with rfl | hm
        · exact ⟨List.mem_cons_self _ _, h⟩
        · rcases ih.1 hm with ⟨hm2, hne⟩
          exact ⟨List.mem_cons_of_mem _ hm2, hne⟩
      · rintro ⟨hm, hne⟩
        rcases List.mem_cons.1 hm with rfl | hm
        · exact List.mem_cons_self _ _
        · exact List.mem_cons_of_mem _ (ih.2 ⟨hm, hne⟩)

theorem keys_eraseEntry [DecidableEq K] (km : List (K × V × Nat)) (k : K) :
    (eraseEntry km k).map (fun e => e.1) =
      filterNe k (km.map (fun e => e.1)) := by
  induction km with
  | nil => rfl
  | cons e es ih =>
    by_cases h : e.1 = k <;> simp [eraseEntry, filterNe, h, ih]

theorem length_eraseEntry_lt [DecidableEq K] {km : List (K × V × Nat)}
    {k : K} (h : ∃ e ∈ km, e.1 = k) :
    (eraseEntry km k).length < km.length := by
  induction km with
  | nil => simp at h
  | cons e es ih =>
    have hle : ∀ l : List (K × V × Nat), (eraseEntry l k).length ≤ l.length := by
      intro l
      induction l with
      | nil => simp [eraseEntry]
      | cons q l ihq =>
        by_cases hq : q.1 = k <;> simp [eraseEntry, hq] <;> omega
    by_cases he : e.1 = k
    · rw [eraseEntry, if_pos he, List.length_cons]
      have := hle es
      omega
    · rw [eraseEntry, if_neg he, List.length_cons, List.length_cons]
      rcases h with ⟨e0, hmem, hk⟩
      rcases List.mem_cons.1 hmem with rfl | hmem
      · exact absurd hk he
      · exact Nat.succ_lt_succ (ih ⟨e0, hmem, hk⟩)

theorem keys_mapEntry [DecidableEq K] (g : V × Nat → V × Nat)
    (km : List (K × V × Nat)) (k : K) :
    (mapEntry g km k).map (fun e => e.1) = km.map (fun e => e.1) := by
  induction km with
  | nil => rfl
  | cons e es ih =>
    by_cases h : e.1 = k <;> simp [mapEntry, h, ih]

theorem length_mapEntry [DecidableEq K] (g : V × Nat → V × Nat)
    (km : List (K × V × Nat)) (k : K) :
    (mapEntry g km k).length = km.length := by
  induction km with
  | nil => rfl
  | cons e es ih =>
    by_cases h : e.1 = k <;> simp [mapEntry, h, ih]

theorem mem_mapEntry_of_ne [DecidableEq K] (g : V × Nat → V × Nat)
    {km : List (K × V × Nat)} {k j : K} (a : V × Nat) (hne : j ≠ k) :
    (j, a) ∈ mapEntry g km k ↔ (j, a) ∈ km := by
  induction km with
  | nil => simp [mapEntry]
  | cons e es ih =>
    by_cases he : e.1 = k
    · rw [mapEntry, if_pos he, List.mem_cons, List.mem_cons, ih]
      constructor
      · rintro (h | h)
        · rw [Prod.mk.injEq] at h
          exact absurd (by rw [h.1, he]) hne
        · exact Or.inr h
      · rintro (rfl | h)
        · exact absurd he hne
        · exact Or.inr h
    · rw [mapEntry, if_neg he, List.mem_cons, List.mem_cons, ih]

theorem findEntry_mapEntry_self [DecidableEq K] (g : V × Nat → V × Nat)
    (km : List (K × V × Nat)) (k : K) :
    findEntry (mapEntry g km k) k = (findEntry km k).map g := by
  induction km with
  | nil => rfl
  | cons e es ih =>
    by_cases he : e.1 = k
    · rw [mapEntry, if_pos he, findEntry, if_pos he, findEntry, if_pos he]
      rfl
    · rw [mapEntry, if_neg he, findEntry, if_neg he, findEntry, if_neg he,
        ih]

theorem mem_of_mem_mapEntry [DecidableEq K] {g : V × Nat → V × Nat}
    {km : List (K × V × Nat)} {k : K} {x : K × V × Nat}
    (h : x ∈ mapEntry g km k) :
    (x ∈ km ∧ x.1 ≠ k) ∨ ∃ a : V × Nat, (k, a) ∈ km ∧ x = (k, g a) := by
  induction km with
  | nil => simp [mapEntry] at h
  | cons e es ih =>
    by_cases he : e.1 = k
    · rw [mapEntry, if_pos he] at h
      rcases List.mem_cons.1 h with rfl | h
      · right
        refine ⟨e.2, ?_, by rw [he]⟩
        rw [← he]
        exact List.mem_cons_self e es
      · rcases ih h with ⟨hm, hne⟩ | ⟨a, ha, rfl⟩
        · exact Or.inl ⟨List.mem_cons_of_mem _ hm, hne⟩
        · exact Or.inr ⟨a, List.mem_cons_of_mem _ ha, rfl⟩
    · rw [mapEntry, if_neg he] at h
      rcases List.mem_cons.1 h with rfl | h
      · exact Or.inl ⟨List.mem_cons_self _ _, he⟩
      · rcases ih h with ⟨hm, hne⟩ | ⟨a, ha, rfl⟩
        · exact Or.inl ⟨List.mem_cons_of_mem _ hm, hne⟩
        · exact Or.inr ⟨a, List.mem_cons_of_mem _ ha, rfl⟩

theorem mem_mapEntry_self [DecidableEq K] (g : V × Nat → V × Nat)
    {km : List (K × V × Nat)} {k : K} {a : V × Nat} (h : (k, a) ∈ km) :
    (k, g a) ∈ mapEntry g km k := by
  induction km with
  | nil => simp at h
  | cons e es ih =>
    rcases List.mem_cons.1 h with rfl | h
    · rw [mapEntry, if_pos rfl]
      exact List.mem_cons_self _ _
    · by_cases he : e.1 = k
      · rw [mapEntry, if_pos he]
        exact List.mem_cons_of_mem _ (ih h)
      · rw [mapEntry, if_neg he]
        exact List.mem_cons_of_mem _ (ih h)

theorem mem_mapEntry_iff [DecidableEq K] {km : List (K × V × Nat)} {k : K}
    {v : V} {f : Nat} (g : V × Nat → V × Nat)
    (hnd : (km.map (fun e => e.1)).Nodup) (hkm : (k, v, f) ∈ km)
    (j : K) (a : V × Nat) :
    (j, a) ∈ mapEntry g km k ↔
      (j ≠ k ∧ (j, a) ∈ km) ∨ (j = k ∧ a = g (v, f)) := by
  constructor
  · intro h
    rcases mem_of_mem_mapEntry h with ⟨hm, hne⟩ | ⟨b, hb, hx⟩
    · exact Or.inl ⟨hne, hm⟩
    · right
      rw [Prod.mk.injEq] at hx
      refine ⟨hx.1, ?_⟩
      have hba : b = (v, f) := entry_unique hnd hb hkm
      rw [hx.2, hba]
  · rintro (⟨hne, hm⟩ | ⟨rfl, rfl⟩)
    · exact (mem_mapEntry_of_ne g a hne).2 hm
    · exact mem_mapEntry_self g hkm

theorem bucketFind_bucketSet_self (fm : List (Nat × List K)) (f : Nat)
    (l : List K) : bucketFind (bucketSet fm f l) f = some l := by
  induction fm with
  | nil => simp [bucketSet, bucketFind]
  | cons b bs ih =>
    by_cases hb : b.1 = f
    · rw [bucketSet, if_pos hb, bucketFind, if_pos rfl]
    · rw [bucketSet, if_neg hb, bucketFind, if_neg hb, ih]

theorem bucketFind_bucketSet_ne (fm : List (Nat × List K)) {f g : Nat}
    (l : List K) (hne : g ≠ f) :
    bucketFind (bucketSet fm f l) g = bucketFind fm g := by
  induction fm with
  | nil => simp [bucketSet, bucketFind, Ne.symm hne]
  | cons b bs ih =>
    by_cases hb : b.1 = f
    · rw [bucketSet, if_pos hb, bucketFind, if_neg (Ne.symm hne),
        bucketFind, if_neg (by rw [hb]; exact Ne.symm hne)]
    · rw [bucketSet, if_neg hb, bucketFind, bucketFind]
      by_cases hbg : b.1 = g
      · rw [if_pos hbg, if_pos hbg]
      · rw [if_neg hbg, if_neg hbg, ih]

theorem bucketList_bucketSet_self (fm : List (Nat × List K)) (f : Nat)
    (l : List K) : bucketList (bucketSet fm f l) f = l := by
  rw [bucketList, bucketFind_bucketSet_self]
  rfl

theorem bucketList_bucketSet_ne (fm : List (Nat × List K)) {f g : Nat}
    (l : List K) (hne : g ≠ f) :
    bucketList (bucketSet fm f l) g = bucketList fm g := by
  rw [bucketList, bucketFind_bucketSet_ne fm l hne, bucketList]

theorem bucketList_moveToFront_self [DecidableEq K]
    (fm : List (Nat × List K)) (f : Nat) (k : K) :
    bucketList (lfuMoveToFront fm f k) f = k :: bucketList fm f := by
  rw [lfuMoveToFront]
  cases hb : bucketFind fm f with
  | none => rw [bucketList_bucketSet_self, bucketList, hb]; rfl
  | some l => rw [bucketList_bucketSet_self, bucketList, hb]; rfl

theorem bucketList_moveToFront_ne [DecidableEq K]
    (fm : List (Nat × List K)) {f g : Nat} (k : K) (hne : g ≠ f) :
    bucketList (lfuMoveToFront fm f k) g = bucketList fm g := by
  rw [lfuMoveToFront]
  cases hb : bucketFind fm f with
  | none => rw [bucketList_bucketSet_ne fm _ hne]
  | some l => rw [bucketList_bucketSet_ne fm _ hne]

theorem bucketList_removeNode_self [DecidableEq K]
    (fm : List (Nat × List K)) (f : Nat) (k : K) :
    bucketList (lfuRemoveNode fm f k) f = filterNe k (bucketList fm f) := by
  rw [lfuRemoveNode]
  cases hb : bucketFind fm f with
  | none => rw [bucketList, hb]; rfl
  | some l => rw [bucketList_bucketSet_self, bucketList, hb]; rfl

theorem bucketList_removeNode_ne [DecidableEq K]
    (fm : List (Nat × List K)) {f g : Nat} (k : K) (hne : g ≠ f) :
    bucketList (lfuRemoveNode fm f k) g = bucketList fm g := by
  rw [lfuRemoveNode]
  cases hb : bucketFind fm f with
  | none => rfl
  | some l => rw [bucketList_bucketSet_ne fm _ hne]

theorem length_filterNe_of_nodup_mem [DecidableEq K] {l : List K} {k : K}
    (hnd : l.Nodup) (hk : k ∈ l) :
    (filterNe k l).length + 1 = l.length := by
  induction l with
  | nil => simp at hk
  | cons a l ih =>
    rw [List.nodup_cons] at hnd
    rcases List.mem_cons.1 hk with rfl | hk
    · rw [filterNe, if_pos rfl, filterNe_of_not_mem hnd.1, List.length_cons]
    · have hak : a ≠ k := fun h => hnd.1 (h ▸ hk)
      rw [filterNe, if_neg hak, List.length_cons, List.length_cons,
        ih hnd.2 hk]

theorem getLast_not_mem_dropLast {α : Type} {l : List α} {a : α}
    (hnd : l.Nodup) (h : l.getLast? = some a) : a ∉ l.dropLast := by
  rcases List.getLast?_eq_some_iff.1 h with ⟨ys, rfl⟩
  rw [List.dropLast_concat]
  have := List.disjoint_of_nodup_append hnd
  intro hmem
  exact this hmem (List.mem_singleton_self a)

theorem mem_dropLast_iff {α : Type} {l : List α} {a j : α}
    (hnd : l.Nodup) (h : l.getLast? = some a) :
    j ∈ l.dropLast ↔ j ∈ l ∧ j ≠ a := by
  rcases List.getLast?_eq_some_iff.1 h with ⟨ys, rfl⟩
  rw [List.dropLast_concat]
  have hdisj := List.disjoint_of_nodup_append hnd
  constructor
  · intro hmem
    refine ⟨List.mem_append_left _ hmem, ?_⟩
    rintro rfl
    exact hdisj hmem (List.mem_singleton_self j)
  · rintro ⟨hmem, hne⟩
    rcases List.mem_append.1 hmem with hmem | hmem
    · exact hmem
    · exact absurd (List.mem_singleton.1 hmem) hne

theorem LFUCache.getNode_inv [DecidableEq K] (s : LFUCache K V) (k : K)
    (hinv : s.Inv) : ((s.getNode k).2).Inv := by
  obtain ⟨hnd, hpos, hiff, hbnd, hmin, hcap, hemp⟩ := hinv
  rw [LFUCache.getNode]
  cases hfind : findEntry s.keyNodeMap_ k with
  | none => exact ⟨hnd, hpos, hiff, hbnd, hmin, hcap, hemp⟩
  | some vf =>
    obtain ⟨v, f⟩ := vf
    have hkm : (k, v, f) ∈ s.keyNodeMap_ := findEntry_some_mem hfind
    have hkuniq : ∀ w g, (k, w, g) ∈ s.keyNodeMap_ → w = v ∧ g = f := by
      intro w g hm
      have := entry_unique hnd hm hkm
      rw [Prod.mk.injEq] at this
      exact this
    have hknotin : ∀ g, g ≠ f → k ∉ bucketList s.freqNodeMap_ g := by
      intro g hg hmem
      rcases (hiff g k).1 hmem with ⟨w, hw⟩
      exact hg (hkuniq w g hw).2
    have hkinf : k ∈ bucketList s.freqNodeMap_ f :=
      (hiff f k).2 ⟨v, hkm⟩
    have hb1 : bucketList (lfuMoveToFront
        (lfuRemoveNode s.freqNodeMap_ f k) (f + 1) k) (f + 1) =
        k :: bucketList s.freqNodeMap_ (f + 1) := by
      rw [bucketList_moveToFront_self,
        bucketList_removeNode_ne _ k (by omega)]
    have hb2 : bucketList (lfuMoveToFront
        (lfuRemoveNode s.freqNodeMap_ f k) (f + 1) k) f =
        filterNe k (bucketList s.freqNodeMap_ f) := by
      rw [bucketList_moveToFront_ne _ k (by omega),
        bucketList_removeNode_self]
    have hb3 : ∀ g, g ≠ f → g ≠ f + 1 →
        bucketList (lfuMoveToFront
          (lfuRemoveNode s.freqNodeMap_ f k) (f + 1) k) g =
          bucketList s.freqNodeMap_ g := by
      intro g hgf hgf1
      rw [bucketList_moveToFront_ne _ k hgf1,
        bucketList_removeNode_ne _ k hgf]
    show LFUCache.Inv
      ⟨if f = s.minFreq_ ∧ (bucketList s.freqNodeMap_ f).length = 1 then
          s.minFreq_ + 1
        else s.minFreq_,
        s.capacity_, mapEntry (fun p => (p.1, p.2 + 1)) s.keyNodeMap_ k,
        lfuMoveToFront (lfuRemoveNode s.freqNodeMap_ f k) (f + 1) k⟩
    refine ⟨?_, ?_, ?_, ?_, ?_, ?_, ?_⟩
    · show ((mapEntry (fun p => (p.1, p.2 + 1)) s.keyNodeMap_ k).map
        (fun e => e.1)).Nodup
      rw [keys_mapEntry]
      exact hnd
    · intro e he
      rcases mem_of_mem_mapEntry he with ⟨hm, _⟩ | ⟨a, _, rfl⟩
      · exact hpos e hm
      · show 1 ≤ a.2 + 1
        omega
    · intro g j
      show j ∈ bucketList (lfuMoveToFront
          (lfuRemoveNode s.freqNodeMap_ f k) (f + 1) k) g ↔ _
      by_cases hjk : j = k
      · subst hjk
        constructor
        · intro hmem
          by_cases hg1 : g = f + 1
          · subst hg1
            exact ⟨v, mem_mapEntry_self _ hkm⟩
          · exfalso
            by_cases hgf : g = f
            · subst hgf
              rw [hb2, mem_filterNe] at hmem
              exact hmem.2 rfl
            · rw [hb3 g hgf hg1] at hmem
              exact hknotin g hgf hmem
        · rintro ⟨w, hw⟩
          rcases (mem_mapEntry_iff _ hnd hkm j (w, g)).1 hw with
            ⟨hne, _⟩ | ⟨_, heq⟩
          · exact absurd rfl hne
          · rw [Prod.mk.injEq] at heq
            rw [heq.2, hb1]
            exact List.mem_cons_self _ _
      · have hiff2 : (∃ w, (j, w, g) ∈ mapEntry
            (fun p => (p.1, p.2 + 1)) s.keyNodeMap_ k) ↔
            ∃ w, (j, w, g) ∈ s.keyNodeMap_ := by
          constructor
          · rintro ⟨w, hw⟩
            rcases (mem_mapEntry_iff _ hnd hkm j (w, g)).1 hw with
              ⟨_, hm⟩ | ⟨hjk2, _⟩
            · exact ⟨w, hm⟩
            · exact absurd hjk2 hjk
          · rintro ⟨w, hw⟩
            exact ⟨w, (mem_mapEntry_of_ne _ (w, g) hjk).2 hw⟩
        rw [hiff2]
        by_cases hg1 : g = f + 1
        · subst hg1
          rw [hb1, List.mem_cons]
          rw [← hiff (f + 1) j]
          simp [hjk]
        · by_cases hgf : g = f
          · rw [hgf, hb2, mem_filterNe, ← hiff f j]
            simp [hjk]
          · rw [hb3 g hgf hg1, hiff g j]
    · intro g
      by_cases hg1 : g = f + 1
      · subst hg1
        show (bucketList (lfuMoveToFront
          (lfuRemoveNode s.freqNodeMap_ f k) (f + 1) k) (f + 1)).Nodup
        rw [hb1]
        exact List.nodup_cons.2 ⟨hknotin (f + 1) (by omega), hbnd (f + 1)⟩
      · by_cases hgf : g = f
        · show (bucketList (lfuMoveToFront
            (lfuRemoveNode s.freqNodeMap_ f k) (f + 1) k) g).Nodup
          rw [hgf, hb2]
          exact nodup_filterNe _ (hbnd f)
        · show (bucketList (lfuMoveToFront
            (lfuRemoveNode s.freqNodeMap_ f k) (f + 1) k) g).Nodup
          rw [hb3 g hgf hg1]
          exact hbnd g
    · intro _
      have hmin2 := hmin (by intro h; rw [h] at hkm; simp at hkm)
      have hfmin : s.minFreq_ ≤ f := hmin2.2 _ hkm
      by_cases hc : f = s.minFreq_ ∧
          (bucketList s.freqNodeMap_ f).length = 1
      · rw [if_pos hc]
        have hsingle : bucketList s.freqNodeMap_ f = [k] := by
          rcases List.length_eq_one.1 hc.2 with ⟨a, ha⟩
          rw [ha] at hkinf ⊢
          rw [List.mem_singleton.1 hkinf]
        constructor
        · show bucketList (lfuMoveToFront
            (lfuRemoveNode s.freqNodeMap_ f k) (f + 1) k)
              (s.minFreq_ + 1) ≠ []
          rw [← hc.1, hb1]
          simp
        · intro e he
          rcases mem_of_mem_mapEntry he with ⟨hm, hne⟩ | ⟨a, ha, rfl⟩
          · show s.minFreq_ + 1 ≤ e.2.2
            have h1 : s.minFreq_ ≤ e.2.2 := hmin2.2 e hm
            rcases Nat.lt_or_ge s.minFreq_ e.2.2 with h2 | h2
            · omega
            · exfalso
              have hef : e.2.2 = f := by omega
              have : e.1 ∈ bucketList s.freqNodeMap_ f := by
                refine (hiff f e.1).2 ⟨e.2.1, ?_⟩
                rw [← hef]
                obtain ⟨e1, e2, e3⟩ := e
                exact hm
              rw [hsingle, List.mem_singleton] at this
              exact hne this
          · show s.minFreq_ + 1 ≤ a.2 + 1
            have : (k, a) ∈ s.keyNodeMap_ := ha
            have := (hkuniq a.1 a.2 (by
              obtain ⟨a1, a2⟩ := a
              exact ha)).2
            omega
      · rw [if_neg hc]
        constructor
        · by_cases hmf : s.minFreq_ = f
          · have hlen : (bucketList s.freqNodeMap_ f).length ≠ 1 := by
              intro h
              exact hc ⟨hmf.symm, h⟩
            show bucketList (lfuMoveToFront
              (lfuRemoveNode s.freqNodeMap_ f k) (f + 1) k)
                s.minFreq_ ≠ []
            rw [hmf, hb2]
            intro hnil
            have := length_filterNe_of_nodup_mem (hbnd f) hkinf
            rw [hnil] at this
            simp at this
            omega
          · have hlt : s.minFreq_ < f := by omega
            show bucketList (lfuMoveToFront
              (lfuRemoveNode s.freqNodeMap_ f k) (f + 1) k)
                s.minFreq_ ≠ []
            rw [hb3 s.minFreq_ (by omega) (by omega)]
            exact hmin2.1
        · intro e he
          rcases mem_of_mem_mapEntry he with ⟨hm, _⟩ | ⟨a, ha, rfl⟩
          · exact hmin2.2 e hm
          · show s.minFreq_ ≤ a.2 + 1
            have := (hkuniq a.1 a.2 (by
              obtain ⟨a1, a2⟩ := a
              exact ha)).2
            omega
    · show (mapEntry (fun p => (p.1, p.2 + 1)) s.keyNodeMap_ k).length ≤
        s.capacity_
      rw [length_mapEntry]
      exact hcap
    · intro h
      exfalso
      have h2 : mapEntry (fun p => (p.1, p.2 + 1)) s.keyNodeMap_ k = [] := h
      have : (k, v, f + 1) ∈ mapEntry (fun p => (p.1, p.2 + 1))
          s.keyNodeMap_ k := mem_mapEntry_self _ hkm
      rw [h2] at this
      simp at this

theorem LFUCache.getNode_fst [DecidableEq K] (s : LFUCache K V) (k : K) :
    (s.getNode k).1 = (findEntry s.keyNodeMap_ k).map (fun p => p.1) := by
  rw [LFUCache.getNode]
  cases findEntry s.keyNodeMap_ k with
  | none => rfl
  | some vf =>
    obtain ⟨v, f⟩ := vf
    rfl

theorem LFUCache.getNode_snd_eq [DecidableEq K] (s : LFUCache K V) (k : K)
    {v : V} {f : Nat} (hfind : findEntry s.keyNodeMap_ k = some (v, f)) :
    (s.getNode k).2 =
      ⟨if f = s.minFreq_ ∧ (bucketList s.freqNodeMap_ f).length = 1 then
          s.minFreq_ + 1
        else s.minFreq_,
        s.capacity_, mapEntry (fun p => (p.1, p.2 + 1)) s.keyNodeMap_ k,
        lfuMoveToFront (lfuRemoveNode s.freqNodeMap_ f k) (f + 1) k⟩ := by
  rw [LFUCache.getNode, hfind]

theorem LFUCache.getNode_snd_of_none [DecidableEq K] (s : LFUCache K V)
    (k : K) (hfind : findEntry s.keyNodeMap_ k = none) :
    s.getNode k = (none, s) := by
  rw [LFUCache.getNode, hfind]

theorem LFUCache.put_found_eq [DecidableEq K] [Inhabited K]
    (s : LFUCache K V) (k : K) (v : V) {v0 : V} {f : Nat}
    (hfind : findEntry s.keyNodeMap_ k = some (v0, f)) :
    s.put k v = some ⟨((s.getNode k).2).minFreq_, ((s.getNode k).2).capacity_,
      mapEntry (fun p => (v, p.2)) ((s.getNode k).2).keyNodeMap_ k,
      ((s.getNode k).2).freqNodeMap_⟩ := by
  have hgn : s.getNode k = (some v0, (s.getNode k).2) := by
    rw [Prod.ext_iff]
    refine ⟨?_, rfl⟩
    rw [LFUCache.getNode_fst, hfind]
    rfl
  rw [LFUCache.put, hgn]

theorem LFUCache.put_fresh_notfull_eq [DecidableEq K] [Inhabited K]
    (s : LFUCache K V) (k : K) (v : V)
    (hfresh : findEntry s.keyNodeMap_ k = none)
    (hnotfull : s.keyNodeMap_.length ≠ s.capacity_) :
    s.put k v = some ⟨1, s.capacity_, (k, v, 1) :: s.keyNodeMap_,
      lfuMoveToFront s.freqNodeMap_ 1 k⟩ := by
  rw [LFUCache.put, LFUCache.getNode_snd_of_none s k hfresh]
  show (if s.keyNodeMap_.length = s.capacity_ then
      match bucketFind s.freqNodeMap_ s.minFreq_ with
      | none => none
      | some l =>
        match l.getLast? with
        | none =>
            some (⟨s.minFreq_, s.capacity_,
              eraseEntry s.keyNodeMap_ default, s.freqNodeMap_⟩ :
                LFUCache K V)
        | some ek =>
            some ⟨s.minFreq_, s.capacity_, eraseEntry s.keyNodeMap_ ek,
              bucketSet s.freqNodeMap_ s.minFreq_ l.dropLast⟩
    else some s).map (fun s1 =>
      (⟨1, s1.capacity_, (k, v, 1) :: s1.keyNodeMap_,
        lfuMoveToFront s1.freqNodeMap_ 1 k⟩ : LFUCache K V)) = _
  rw [if_neg hnotfull]
  rfl

theorem bucketFind_of_bucketList_ne_nil {fm : List (Nat × List K)}
    {f : Nat} (h : bucketList fm f ≠ []) :
    bucketFind fm f = some (bucketList fm f) := by
  cases hb : bucketFind fm f with
  | none =>
    exfalso
    apply h
    rw [bucketList, hb]
    rfl
  | some l =>
    rw [bucketList, hb]
    rfl

theorem LFUCache.put_fresh_full_eq [DecidableEq K] [Inhabited K]
    (s : LFUCache K V) (k : K) (v : V) (hinv : s.Inv)
    (hfresh : findEntry s.keyNodeMap_ k = none)
    (hfull : s.keyNodeMap_.length = s.capacity_) (hc : 1 ≤ s.capacity_) :
    ∃ ek ve, (bucketList s.freqNodeMap_ s.minFreq_).getLast? = some ek ∧
      (ek, ve, s.minFreq_) ∈ s.keyNodeMap_ ∧
      s.put k v = some ⟨1, s.capacity_, (k, v, 1) ::
          eraseEntry s.keyNodeMap_ ek,
        lfuMoveToFront (bucketSet s.freqNodeMap_ s.minFreq_
          (bucketList s.freqNodeMap_ s.minFreq_).dropLast) 1 k⟩ := by
  obtain ⟨hnd, hpos, hiff, hbnd, hmin, hcap, hemp⟩ := hinv
  have hne : s.keyNodeMap_ ≠ [] := by
    intro h
    rw [h] at hfull
    simp at hfull
    omega
  have hminb := hmin hne
  have hbf := bucketFind_of_bucketList_ne_nil hminb.1
  obtain ⟨ek, hek⟩ : ∃ ek,
      (bucketList s.freqNodeMap_ s.minFreq_).getLast? = some ek := by
    cases hl : (bucketList s.freqNodeMap_ s.minFreq_).getLast? with
    | none =>
      exfalso
      exact hminb.1 (List.getLast?_eq_none_iff.1 hl)
    | some a => exact ⟨a, rfl⟩
  have hekmem : ek ∈ bucketList s.freqNodeMap_ s.minFreq_ := by
    rcases List.getLast?_eq_some_iff.1 hek with ⟨ys, hys⟩
    rw [hys]
    simp
  obtain ⟨ve, hve⟩ := (hiff s.minFreq_ ek).1 hekmem
  refine ⟨ek, ve, hek, hve, ?_⟩
  rw [LFUCache.put, LFUCache.getNode_snd_of_none s k hfresh]
  show (if s.keyNodeMap_.length = s.capacity_ then
      match bucketFind s.freqNodeMap_ s.minFreq_ with
      | none => none
      | some l =>
        match l.getLast? with
        | none =>
            some (⟨s.minFreq_, s.capacity_,
              eraseEntry s.keyNodeMap_ default, s.freqNodeMap_⟩ :
                LFUCache K V)
        | some ek =>
            some ⟨s.minFreq_, s.capacity_, eraseEntry s.keyNodeMap_ ek,
              bucketSet s.freqNodeMap_ s.minFreq_ l.dropLast⟩
    else some s).map (fun s1 =>
      (⟨1, s1.capacity_, (k, v, 1) :: s1.keyNodeMap_,
        lfuMoveToFront s1.freqNodeMap_ 1 k⟩ : LFUCache K V)) = _
  rw [if_pos hfull, hbf]
  show (match (bucketList s.freqNodeMap_ s.minFreq_).getLast? with
      | none =>
          some (⟨s.minFreq_, s.capacity_,
            eraseEntry s.keyNodeMap_ default, s.freqNodeMap_⟩ :
              LFUCache K V)
      | some ek =>
          some ⟨s.minFreq_, s.capacity_, eraseEntry s.keyNodeMap_ ek,
            bucketSet s.freqNodeMap_ s.minFreq_
              (bucketList s.freqNodeMap_ s.minFreq_).dropLast⟩).map
    (fun s1 : LFUCache K V =>
      (⟨1, s1.capacity_, (k, v, 1) :: s1.keyNodeMap_,
        lfuMoveToFront s1.freqNodeMap_ 1 k⟩ : LFUCache K V)) = _
  rw [hek]
  rfl

theorem LFUCache.inv_setValue [DecidableEq K] {mf cap : Nat}
    {km : List (K × V × Nat)} {fm : List (Nat × List K)} {k : K} {v0 : V}
    {f0 : Nat} (v : V)
    (hinv : (⟨mf, cap, km, fm⟩ : LFUCache K V).Inv) (hk : (k, v0, f0) ∈ km) :
    (⟨mf, cap, mapEntry (fun p => (v, p.2)) km k, fm⟩ :
      LFUCache K V).Inv := by
  obtain ⟨hnd, hpos, hiff, hbnd, hmin, hcap, hemp⟩ := hinv
  have hne : km ≠ [] := List.ne_nil_of_mem hk
  have hmin2 := hmin hne
  refine ⟨?_, ?_, ?_, hbnd, ?_, ?_, ?_⟩
  · show ((mapEntry (fun p => (v, p.2)) km k).map (fun e => e.1)).Nodup
    rw [keys_mapEntry]
    exact hnd
  · intro e he
    rcases mem_of_mem_mapEntry he with ⟨hm, _⟩ | ⟨a, ha, rfl⟩
    · exact hpos e hm
    · show 1 ≤ a.2
      exact hpos (k, a) ha
  · intro g j
    show j ∈ bucketList fm g ↔ _
    constructor
    · intro hmem
      rcases (hiff g j).1 hmem with ⟨w, hw⟩
      by_cases hjk : j = k
      · subst hjk
        have := entry_unique hnd hw hk
        rw [Prod.mk.injEq] at this
        refine ⟨v, (mem_mapEntry_iff _ hnd hk j (v, g)).2 ?_⟩
        right
        exact ⟨rfl, by rw [this.2]⟩
      · exact ⟨w, (mem_mapEntry_of_ne _ (w, g) hjk).2 hw⟩
    · rintro ⟨w, hw⟩
      rcases (mem_mapEntry_iff _ hnd hk j (w, g)).1 hw with
        ⟨_, hm⟩ | ⟨rfl, heq⟩
      · exact (hiff g j).2 ⟨w, hm⟩
      · rw [Prod.mk.injEq] at heq
        rw [heq.2]
        exact (hiff f0 j).2 ⟨v0, hk⟩
  · intro _
    refine ⟨hmin2.1, ?_⟩
    intro e he
    rcases mem_of_mem_mapEntry he with ⟨hm, _⟩ | ⟨a, ha, rfl⟩
    · exact hmin2.2 e hm
    · show mf ≤ a.2
      exact hmin2.2 (k, a) ha
  · show (mapEntry (fun p => (v, p.2)) km k).length ≤ cap
    rw [length_mapEntry]
    exact hcap
  · intro h
    exfalso
    have h2 : mapEntry (fun p => (v, p.2)) km k = [] := h
    have := mem_mapEntry_self (fun p => (v, p.2)) hk
    rw [h2] at this
    simp at this

theorem LFUCache.inv_insert_fresh [DecidableEq K] {cap : Nat}
    {km1 : List (K × V × Nat)} {fm1 : List (Nat × List K)} {k : K} (v : V)
    (hnd1 : (km1.map (fun e => e.1)).Nodup)
    (hpos1 : ∀ e ∈ km1, 1 ≤ e.2.2)
    (hiff1 : ∀ g j, j ∈ bucketList fm1 g ↔ ∃ w, (j, w, g) ∈ km1)
    (hbnd1 : ∀ g, (bucketList fm1 g).Nodup)
    (hlen : km1.length < cap)
    (hkfresh : ∀ e ∈ km1, e.1 ≠ k) :
    (⟨1, cap, (k, v, 1) :: km1, lfuMoveToFront fm1 1 k⟩ :
      LFUCache K V).Inv := by
  have hknot : ∀ g, k ∉ bucketList fm1 g := by
    intro g hmem
    rcases (hiff1 g k).1 hmem with ⟨w, hw⟩
    exact hkfresh (k, w, g) hw rfl
  refine ⟨?_, ?_, ?_, ?_, ?_, ?_, ?_⟩
  · show (((k, v, 1) :: km1).map (fun e => e.1)).Nodup
    rw [List.map_cons, List.nodup_cons]
    refine ⟨?_, hnd1⟩
    intro hmem
    rcases List.mem_map.1 hmem with ⟨e, he, heq⟩
    exact hkfresh e he heq
  · intro e he
    rcases List.mem_cons.1 he with rfl | he
    · exact Nat.le_refl 1
    · exact hpos1 e he
  · intro g j
    show j ∈ bucketList (lfuMoveToFront fm1 1 k) g ↔
      ∃ w, (j, w, g) ∈ (k, v, 1) :: km1
    by_cases hg1 : g = 1
    · subst hg1
      rw [bucketList_moveToFront_self, List.mem_cons]
      constructor
      · rintro (rfl | hmem)
        · exact ⟨v, List.mem_cons_self _ _⟩
        · rcases (hiff1 1 j).1 hmem with ⟨w, hw⟩
          exact ⟨w, List.mem_cons_of_mem _ hw⟩
      · rintro ⟨w, hw⟩
        rcases List.mem_cons.1 hw with heq | hw
        · simp only [Prod.mk.injEq] at heq
          exact Or.inl heq.1
        · exact Or.inr ((hiff1 1 j).2 ⟨w, hw⟩)
    · rw [bucketList_moveToFront_ne _ k hg1]
      constructor
      · intro hmem
        rcases (hiff1 g j).1 hmem with ⟨w, hw⟩
        exact ⟨w, List.mem_cons_of_mem _ hw⟩
      · rintro ⟨w, hw⟩
        rcases List.mem_cons.1 hw with heq | hw
        · exfalso
          simp only [Prod.mk.injEq] at heq
          exact hg1 heq.2.2
        · exact (hiff1 g j).2 ⟨w, hw⟩
  · intro g
    by_cases hg1 : g = 1
    · subst hg1
      show (bucketList (lfuMoveToFront fm1 1 k) 1).Nodup
      rw [bucketList_moveToFront_self]
      exact List.nodup_cons.2 ⟨hknot 1, hbnd1 1⟩
    · show (bucketList (lfuMoveToFront fm1 1 k) g).Nodup
      rw [bucketList_moveToFront_ne _ k hg1]
      exact hbnd1 g
  · intro _
    constructor
    · show bucketList (lfuMoveToFront fm1 1 k) 1 ≠ []
      rw [bucketList_moveToFront_self]
      simp
    · intro e he
      rcases List.mem_cons.1 he with rfl | he
      · exact Nat.le_refl 1
      · exact hpos1 e he
  · show ((k, v, 1) :: km1).length ≤ cap
    rw [List.length_cons]
    omega
  · intro h
    simp at h

theorem LFUCache.put_some_inv_get [DecidableEq K] [Inhabited K]
    (s : LFUCache K V) (k : K) (v : V) (hinv : s.Inv)
    (hc : 1 ≤ s.capacity_) :
    ∃ s', s.put k v = some s' ∧ s'.Inv ∧ s'.capacity_ = s.capacity_ ∧
      ∃ f1, findEntry s'.keyNodeMap_ k = some (v, f1) := by
  have hinv0 := hinv
  obtain ⟨hnd, hpos, hiff, hbnd, hmin, hcap, hemp⟩ := hinv0
  cases hfind : findEntry s.keyNodeMap_ k with
  | some vf =>
    obtain ⟨v0, f⟩ := vf
    refine ⟨_, LFUCache.put_found_eq s k v hfind, ?_, ?_, ?_⟩
    · have hInv1 : ((s.getNode k).2).Inv := LFUCache.getNode_inv s k hinv
      have hmem1 : (k, v0, f + 1) ∈ ((s.getNode k).2).keyNodeMap_ := by
        rw [LFUCache.getNode_snd_eq s k hfind]
        exact mem_mapEntry_self _ (findEntry_some_mem hfind)
      exact LFUCache.inv_setValue v hInv1 hmem1
    · show ((s.getNode k).2).capacity_ = s.capacity_
      rw [LFUCache.getNode_snd_eq s k hfind]
    · refine ⟨f + 1, ?_⟩
      show findEntry (mapEntry (fun p => (v, p.2))
        ((s.getNode k).2).keyNodeMap_ k) k = some (v, f + 1)
      rw [findEntry_mapEntry_self, LFUCache.getNode_snd_eq s k hfind]
      show ((findEntry (mapEntry (fun p => (p.1, p.2 + 1))
        s.keyNodeMap_ k) k).map (fun p => (v, p.2))) = some (v, f + 1)
      rw [findEntry_mapEntry_self, hfind]
      rfl
  | none =>
    have hkfresh : ∀ e ∈ s.keyNodeMap_, e.1 ≠ k :=
      (findEntry_eq_none_iff s.keyNodeMap_ k).1 hfind
    by_cases hfull : s.keyNodeMap_.length = s.capacity_
    · obtain ⟨ek, ve, hek, hve, heq⟩ :=
        LFUCache.put_fresh_full_eq s k v hinv hfind hfull hc
      refine ⟨_, heq, ?_, rfl, ⟨1, by rw [findEntry, if_pos rfl]⟩⟩
      have hekuniq : ∀ w g, (ek, w, g) ∈ s.keyNodeMap_ →
          w = ve ∧ g = s.minFreq_ := by
        intro w g hm
        have := entry_unique hnd hm hve
        rw [Prod.mk.injEq] at this
        exact this
      refine LFUCache.inv_insert_fresh v ?_ ?_ ?_ ?_ ?_ ?_
      · rw [keys_eraseEntry]
        exact nodup_filterNe _ hnd
      · intro e he
        exact hpos e ((mem_eraseEntry _ _ _).1 he).1
      · intro g j
        by_cases hg : g = s.minFreq_
        · subst hg
          rw [bucketList_bucketSet_self]
          constructor
          · intro hmem
            rcases (mem_dropLast_iff (hbnd s.minFreq_) hek).1 hmem with
              ⟨hmem2, hne⟩
            rcases (hiff s.minFreq_ j).1 hmem2 with ⟨w, hw⟩
            exact ⟨w, (mem_eraseEntry _ _ _).2 ⟨hw, hne⟩⟩
          · rintro ⟨w, hw⟩
            rcases (mem_eraseEntry _ _ _).1 hw with ⟨hm, hne⟩
            refine (mem_dropLast_iff (hbnd s.minFreq_) hek).2
              ⟨(hiff s.minFreq_ j).2 ⟨w, hm⟩, hne⟩
        · rw [bucketList_bucketSet_ne _ _ hg]
          constructor
          · intro hmem
            rcases (hiff g j).1 hmem with ⟨w, hw⟩
            refine ⟨w, (mem_eraseEntry _ _ _).2 ⟨hw, ?_⟩⟩
            rintro rfl
            exact hg (hekuniq w g hw).2
          · rintro ⟨w, hw⟩
            exact (hiff g j).2 ⟨w, ((mem_eraseEntry _ _ _).1 hw).1⟩
      · intro g
        by_cases hg : g = s.minFreq_
        · subst hg
          rw [bucketList_bucketSet_self]
          exact (List.dropLast_sublist _).nodup (hbnd s.minFreq_)
        · rw [bucketList_bucketSet_ne _ _ hg]
          exact hbnd g
      · rw [← hfull]
        exact length_eraseEntry_lt ⟨(ek, ve, s.minFreq_), hve, rfl⟩
      · intro e he
        exact hkfresh e ((mem_eraseEntry _ _ _).1 he).1
    · have heq := LFUCache.put_fresh_notfull_eq s k v hfind hfull
      refine ⟨_, heq, ?_, rfl, ⟨1, by rw [findEntry, if_pos rfl]⟩⟩
      exact LFUCache.inv_insert_fresh v hnd hpos hiff hbnd (by omega) hkfresh

theorem LFUCache.init_inv [DecidableEq K] (C m0 : Nat) :
    (LFUCache.init C m0 : LFUCache K V).Inv := by
  refine ⟨List.nodup_nil, ?_, ?_, ?_, ?_, ?_, ?_⟩
  · intro e he
    exact absurd he (List.not_mem_nil e)
  · intro f k
    simp [LFUCache.init, bucketList, bucketFind]
  · intro f
    simp [LFUCache.init, bucketList, bucketFind]
  · intro h
    exact absurd rfl h
  · exact Nat.zero_le C
  · intro _
    rfl

theorem LFUCache.put_capacity_zero_none [DecidableEq K] [Inhabited K]
    (s : LFUCache K V) (k : K) (v : V) (hinv : s.Inv)
    (hc : s.capacity_ = 0) : s.put k v = none := by
  obtain ⟨mf, cap, km, fm⟩ := s
  obtain ⟨-, -, -, -, -, hcap, hemp⟩ := hinv
  have hkm : km = [] := by
    have : km.length = 0 := by
      simp only at hcap hc
      omega
    exact List.eq_nil_of_length_eq_zero this
  subst hkm
  have hfm : fm = [] := hemp rfl
  subst hfm
  simp only at hc
  subst hc
  rfl

theorem LFUCache.put_inv [DecidableEq K] [Inhabited K]
    (s s' : LFUCache K V) (k : K) (v : V) (hinv : s.Inv)
    (hput : s.put k v = some s') : s'.Inv := by
  by_cases hc : 1 ≤ s.capacity_
  · obtain ⟨s2, hput2, hinv2, -, -⟩ := LFUCache.put_some_inv_get s k v hinv hc
    rw [hput] at hput2
    cases Option.some.inj hput2
    exact hinv2
  · rw [LFUCache.put_capacity_zero_none s k v hinv (by omega)] at hput
    exact absurd hput (Option.noConfusion)

theorem LFUCache.get_inv [DecidableEq K] [Inhabited K]
    (s : LFUCache K V) (k : K) (hinv : s.Inv) : ((s.get k).2).Inv := by
  rw [LFUCache.get]
  by_cases hc : s.capacity_ = 0
  · rw [if_pos hc]
    exact hinv
  · rw [if_neg hc]
    exact LFUCache.getNode_inv s k hinv

theorem LFUCache.step_preserves_inv [DecidableEq K] [Inhabited K]
    (s s' : LFUCache K V) (op : CacheOp K V) (hinv : s.Inv)
    (hstep : s.step op = some s') : s'.Inv := by
  cases op with
  | put k v => exact LFUCache.put_inv s s' k v hinv hstep
  | get k =>
    have h : (s.get k).2 = s' := Option.some.inj hstep
    rw [← h]
    exact LFUCache.get_inv s k hinv

theorem LFUCache.run_preserves_inv [DecidableEq K] [Inhabited K]
    (ops : List (CacheOp K V)) (s s' : LFUCache K V) (hinv : s.Inv)
    (hrun : s.run ops = some s') : s'.Inv := by
  induction ops generalizing s with
  | nil =>
    cases Option.some.inj hrun
    exact hinv
  | cons op ops ih =>
    rw [LFUCache.run] at hrun
    cases hstep : s.step op with
    | none =>
      rw [hstep] at hrun
      exact absurd hrun (Option.noConfusion)
    | some s1 =>
      rw [hstep] at hrun
      exact ih s1 (LFUCache.step_preserves_inv s s1 op hinv hstep) hrun

/-- Claim C7: in the LFU engine, after every completed operation sequence
from a fresh cache, whenever the cache is non-empty `minFreq_` is a lower
bound on the frequency field of every resident entry. -/
theorem C7_minfreq_lower_bound [DecidableEq K] [Inhabited K]
    (C m0 : Nat) (ops : List (CacheOp K V)) (s : LFUCache K V)
    (hrun : (LFUCache.init C m0).run ops = some s)
    (hne : s.keyNodeMap_ ≠ []) :
    ∀ e ∈ s.keyNodeMap_, s.minFreq_ ≤ e.2.2 := by
  have hinv := LFUCache.run_preserves_inv ops (LFUCache.init C m0) s
    (LFUCache.init_inv C m0) hrun
  exact (hinv.2.2.2.2.1 hne).2

theorem C7_witness :
    (⟨1, 1, [(1, 5, 1)], [(1, [1])]⟩ : LFUCache Nat Nat).minFreq_ ≤
      ((1, 5, 1) : Nat × Nat × Nat).2.2 :=
  C7_minfreq_lower_bound 1 0 [.put 1 5]
    ⟨1, 1, [(1, 5, 1)], [(1, [1])]⟩ (by decide) (by decide)
    (1, 5, 1) (by decide)

/-- Claim C2: on a reachable full LFU cache of positive capacity, a put of
a fresh key completes, the evicted key `ek` is resident with frequency
exactly `minFreq_`, `minFreq_` is minimal among all resident frequencies,
the `minFreq_` bucket holds exactly the minimum-frequency residents, `ek`
is the last (oldest-inserted) element of that bucket, and the new map is
the old one with `ek` removed and `(k, v, 1)` inserted. -/
theorem C2_lfu_evicts_oldest_min_freq [DecidableEq K] [Inhabited K]
    (C m0 : Nat) (ops : List (CacheOp K V)) (s : LFUCache K V) (k : K) (v : V)
    (hrun : (LFUCache.init C m0).run ops = some s)
    (hc : 1 ≤ s.capacity_)
    (hfull : s.keyNodeMap_.length = s.capacity_)
    (hfresh : findEntry s.keyNodeMap_ k = none) :
    ∃ ek ve s', s.put k v = some s' ∧
      (ek, ve, s.minFreq_) ∈ s.keyNodeMap_ ∧
      (∀ e ∈ s.keyNodeMap_, s.minFreq_ ≤ e.2.2) ∧
      (∀ j, j ∈ bucketList s.freqNodeMap_ s.minFreq_ ↔
        ∃ w, (j, w, s.minFreq_) ∈ s.keyNodeMap_) ∧
      (bucketList s.freqNodeMap_ s.minFreq_).getLast? = some ek ∧
      s'.keyNodeMap_ = (k, v, 1) :: eraseEntry s.keyNodeMap_ ek := by
  have hinv := LFUCache.run_preserves_inv ops (LFUCache.init C m0) s
    (LFUCache.init_inv C m0) hrun
  obtain ⟨ek, ve, hek, hve, heq⟩ :=
    LFUCache.put_fresh_full_eq s k v hinv hfresh hfull hc
  have hne : s.keyNodeMap_ ≠ [] := by
    intro h
    rw [h] at hfull
    simp only [List.length_nil] at hfull
    omega
  refine ⟨ek, ve, _, heq, hve, (hinv.2.2.2.2.1 hne).2, ?_, hek, rfl⟩
  intro j
  exact hinv.2.2.1 s.minFreq_ j

theorem C2_witness :
    ∃ ek ve s',
      (⟨1, 2, [(2, 6, 2), (1, 5, 1)], [(1, [1]), (2, [2])]⟩ :
          LFUCache Nat Nat).put 3 7 = some s' ∧
      (ek, ve, 1) ∈ ([(2, 6, 2), (1, 5, 1)] : List (Nat × Nat × Nat)) ∧
      (∀ e ∈ ([(2, 6, 2), (1, 5, 1)] : List (Nat × Nat × Nat)), 1 ≤ e.2.2) ∧
      (∀ j, j ∈ bucketList ([(1, [1]), (2, [2])] : List (Nat × List Nat)) 1 ↔
        ∃ w, (j, w, 1) ∈ ([(2, 6, 2), (1, 5, 1)] : List (Nat × Nat × Nat))) ∧
      (bucketList ([(1, [1]), (2, [2])] : List (Nat × List Nat)) 1).getLast?
        = some ek ∧
      s'.keyNodeMap_ = (3, 7, 1) ::
        eraseEntry ([(2, 6, 2), (1, 5, 1)] : List (Nat × Nat × Nat)) ek :=
  C2_lfu_evicts_oldest_min_freq 2 0 [.put 1 5, .put 2 6, .get 2]
    ⟨1, 2, [(2, 6, 2), (1, 5, 1)], [(1, [1]), (2, [2])]⟩ 3 7
    (by decide) (by decide) (by decide) (by decide)

/-- Claim C9 as stated is false: on an LRU engine of capacity 0 the put is
a no-op and the immediately following get misses instead of returning the
value. -/
theorem C9_cex :
    ¬ ((((LRUCache.init 0 : LRUCache Nat Nat).put 1 2).get 1).1 = some 2) := by
  decide

/-- Claim C9, amended: put-then-get returns the stored value on every LRU
state of positive capacity, and on every reachable LFU state of positive
capacity, where the put on such an LFU state also always completes. -/
theorem C9_put_get_amended [DecidableEq K] [Inhabited K] :
    (∀ (s : LRUCache K V) (k : K) (v : V), 1 ≤ s.capacity →
      ((s.put k v).get k).1 = some v) ∧
    (∀ (C m0 : Nat) (ops : List (CacheOp K V)) (s : LFUCache K V) (k : K)
      (v : V), (LFUCache.init C m0).run ops = some s → 1 ≤ s.capacity_ →
      ∃ s', s.put k v = some s' ∧ (s'.get k).1 = some v) := by
  constructor
  · intro s k v h
    exact lruGet_fst_after_put s k v h
  · intro C m0 ops s k v hrun hc
    have hinv := LFUCache.run_preserves_inv ops (LFUCache.init C m0) s
      (LFUCache.init_inv C m0) hrun
    obtain ⟨s', hput, hinv2, hcap, f1, hfind⟩ :=
      LFUCache.put_some_inv_get s k v hinv hc
    refine ⟨s', hput, ?_⟩
    rw [LFUCache.get, if_neg (by omega), LFUCache.getNode_fst, hfind]
    rfl

theorem C9_witness :
    (((LRUCache.init 1 : LRUCache Nat Nat).put 1 2).get 1).1 = some 2 :=
  (C9_put_get_amended).1 (LRUCache.init 1) 1 2 (by decide)
